import Mathlib

/-!
Verification development for the `rommy` run-recording tool.

Text is modelled as `List Char` (one entry per byte of the UTF-8-decoded
text; all data relevant to the claims is ASCII).  The Rust sources are
embedded shallowly:

* `src/parser.rs` — `Block`, `RommyRecord`, `parse_str` (a line-oriented
  state machine), `finish_record`.
* `src/main.rs` — `write_record` (the record encoder) and the
  lock-protected atomic write path of `run`.
-/

namespace Rommy

/-! ## Text primitives -/

/-- ASCII model of Rust `char::is_whitespace` (the inputs relevant here are
    ASCII; only space, tab, newline and carriage return occur). -/
def isWs (c : Char) : Bool :=
  c = ' ' || c = '\t' || c = '\n' || c = '\r'

/-- Rust `str::trim_start` (ASCII model). -/
def ltrim (s : List Char) : List Char := s.dropWhile isWs

/-- Rust `str::trim_end` (ASCII model). -/
def rtrim (s : List Char) : List Char := (s.reverse.dropWhile isWs).reverse

/-- Rust `str::trim` (ASCII model). -/
def trim (s : List Char) : List Char := ltrim (rtrim s)

/-- Rust `str::lines` on text free of `"\r\n"`: split at `'\n'`, the final
    line terminator being optional (`"a\n"` has one line, `"a\nb"` two,
    `""` none). -/
def lines : List Char → List (List Char)
  | [] => []
  | c :: rest =>
    if c = '\n' then [] :: lines rest
    else
      match lines rest with
      | [] => [[c]]
      | l :: ls => (c :: l) :: ls

/-- Rust `str::replace("\r\n", "\n")` (left-to-right, non-overlapping). -/
def replaceCrLf : List Char → List Char
  | '\r' :: '\n' :: rest => '\n' :: replaceCrLf rest
  | c :: rest => c :: replaceCrLf rest
  | [] => []

/-- Drop one trailing newline if present (the "trailing-newline
    normalization" under which the spec compares captured bytes). -/
def chomp (s : List Char) : List Char :=
  if s.getLast? = some '\n' then s.dropLast else s

/-- Rust `str::split_once(':')`. -/
def splitOnceColon : List Char → Option (List Char × List Char)
  | [] => none
  | c :: rest =>
    if c = ':' then some ([], rest)
    else (splitOnceColon rest).map (fun p => (c :: p.1, p.2))

/-! ## `src/parser.rs` -/

/-- The four block kinds. -/
inductive Block where
  | meta | command | stdout | stderr
deriving DecidableEq, Repr

/-- Rust `{:?}` rendering of `Block`, used in one parse error. -/
def blockName : Block → String
  | .meta => "Meta"
  | .command => "Command"
  | .stdout => "Stdout"
  | .stderr => "Stderr"

def metaMarker : List Char := "<<<META>>>".data
def commandMarker : List Char := "<<<COMMAND>>>".data
def stdoutMarker : List Char := "<<<STDOUT>>>".data
def stderrMarker : List Char := "<<<STDERR>>>".data
def endMarker : List Char := "<<<END>>>".data

/-- `Block::from_marker`: match the trimmed line against the begin markers. -/
def from_marker (s : List Char) : Option Block :=
  let t := trim s
  if t = metaMarker then some .meta
  else if t = commandMarker then some .command
  else if t = stdoutMarker then some .stdout
  else if t = stderrMarker then some .stderr
  else none

/-- A parsed record.  `meta` models the Rust `HashMap` as an association
    list with the most recent insertion first, so that `metaLookup`
    (first match) gives the HashMap's last-insertion-wins reads. -/
structure RommyRecord where
  meta : List (List Char × List Char)
  command : List Char
  stdout : List Char
  stderr : List Char
deriving DecidableEq, Repr

/-- `HashMap::insert` (later insertions shadow earlier ones on lookup). -/
def metaInsert (k v : List Char) (m : List (List Char × List Char)) :
    List (List Char × List Char) := (k, v) :: m

/-- `HashMap::get` under the representation above. -/
def metaLookup (m : List (List Char × List Char)) (k : List Char) :
    Option (List Char) :=
  match m with
  | [] => none
  | (k', v) :: rest => if k' = k then some v else metaLookup rest k

/-- Parser mode: Rust's local `enum State { Idle, InBlock(Block) }`. -/
inductive PMode where
  | idle
  | inBlock (b : Block)
deriving DecidableEq, Repr

/-- The mutable locals of `parse_str`, gathered into one state record. -/
structure PState where
  out : List RommyRecord
  curMeta : Option (List (List Char × List Char))
  curCmd : List Char
  curStdout : List Char
  curStderr : List Char
  sawMeta : Bool
  sawCommand : Bool
  sawStdout : Bool
  sawStderr : Bool
  mode : PMode
deriving DecidableEq, Repr

def initPS : PState :=
  ⟨[], none, [], [], [], false, false, false, false, .idle⟩

/-- `missing` list computed by `finish_record`, in source order. -/
def missingList (sawMeta sawCommand sawStdout sawStderr : Bool) : List String :=
  (if sawMeta then [] else ["META"]) ++
  (if sawCommand then [] else ["COMMAND"]) ++
  (if sawStdout then [] else ["STDOUT"]) ++
  (if sawStderr then [] else ["STDERR"])

/-- Rust `Vec::join(", ")`. -/
def joinComma : List String → String
  | [] => ""
  | [x] => x
  | x :: xs => x ++ ", " ++ joinComma xs

/-- `finish_record`: require all four blocks closed, then emit the record.
    `cur_meta.take()` leaves `curMeta = none`. -/
def finish_record (s : PState) : Except String PState :=
  match s.curMeta with
  | none => .error "unexpected end of record: META missing"
  | some m =>
    let missing := missingList s.sawMeta s.sawCommand s.sawStdout s.sawStderr
    if missing = [] then
      .ok { s with
              out := s.out ++ [⟨m, s.curCmd, s.curStdout, s.curStderr⟩],
              curMeta := none }
    else
      .error ("incomplete record: missing block(s): " ++ joinComma missing)

/-- `start_record`: fresh META map, clear the three body buffers. -/
def startRecord (s : PState) : PState :=
  { s with curMeta := some [], curCmd := [], curStdout := [], curStderr := [] }

/-- Append one line to a body buffer: `if !cur.is_empty() { push('\n') };
    push_str(line)`. -/
def accLine (cur l : List Char) : List Char :=
  if cur = [] then l else cur ++ '\n' :: l

/-- Read a block buffer of the state by kind (META handled separately). -/
def getBuf (s : PState) : Block → List Char
  | .meta => []
  | .command => s.curCmd
  | .stdout => s.curStdout
  | .stderr => s.curStderr

/-- Write a block buffer of the state by kind (META handled separately). -/
def setBuf (s : PState) (b : Block) (v : List Char) : PState :=
  match b with
  | .meta => s
  | .command => { s with curCmd := v }
  | .stdout => { s with curStdout := v }
  | .stderr => { s with curStderr := v }

/-- Set the `saw_*` flag for a block kind. -/
def setSeen (s : PState) : Block → PState
  | .meta => { s with sawMeta := true }
  | .command => { s with sawCommand := true }
  | .stdout => { s with sawStdout := true }
  | .stderr => { s with sawStderr := true }

/-- One iteration of the `for raw_line in lines` loop of `parse_str`. -/
def stepLine (s : PState) (line : List Char) : Except String PState :=
  match from_marker line with
  | some b =>
    match s.mode with
    | .idle =>
      match b with
      | .meta => do
        let s ← if s.curMeta.isSome then finish_record s else .ok s
        .ok { startRecord s with
                sawMeta := false, sawCommand := false,
                sawStdout := false, sawStderr := false,
                mode := .inBlock .meta }
      | _ =>
        if s.curMeta.isSome then .ok { s with mode := .inBlock b }
        else .ok s   -- noise before the first META is ignored
    | .inBlock _ =>
      .error ("unexpected start of block " ++ blockName b ++
              " before closing previous block")
  | none =>
    if trim line = endMarker then
      match s.mode with
      | .idle => .ok s   -- stray END is noise
      | .inBlock b => .ok { setSeen s b with mode := .idle }
    else
      match s.mode with
      | .idle => .ok s   -- lines outside blocks are noise
      | .inBlock .meta =>
        if trim line = [] then .ok s
        else
          match splitOnceColon line with
          | some (k, v) =>
            .ok { s with curMeta := s.curMeta.map (metaInsert (trim k) (trim v)) }
          | none => .ok s   -- tolerate META lines without a colon
      | .inBlock b => .ok (setBuf s b (accLine (getBuf s b) line))

/-- The parser loop over all lines. -/
def processLines (s : PState) : List (List Char) → Except String PState
  | [] => .ok s
  | l :: ls =>
    match stepLine s l with
    | .ok s' => processLines s' ls
    | .error e => .error e

/-- The end-of-input checks of `parse_str` (`parser.rs:256-277`). -/
def finalize (s : PState) : Except String (List RommyRecord) :=
  match s.mode with
  | .inBlock _ => .error "unexpected EOF: block not closed with <<<END>>>"
  | .idle =>
    if s.curMeta.isSome then (finish_record s).map (fun s' => s'.out)
    else .ok s.out

/-- Scan a list of lines from a state and run the end-of-input checks. -/
def runFrom (s : PState) (ls : List (List Char)) :
    Except String (List RommyRecord) :=
  match processLines s ls with
  | .error e => .error e
  | .ok s' => finalize s'

/-- `parse_str`: normalize CRLF, scan lines, then the end-of-input checks. -/
def parse_str (input : List Char) : Except String (List RommyRecord) :=
  runFrom initPS (lines (replaceCrLf input))

/-! ## `src/main.rs` — the record encoder `write_record` -/

/-- `enum RommyCommand { Line(String), Script { path, content } }`. -/
inductive RommyCommand where
  | line (l : List Char)
  | script (path content : List Char)
deriving DecidableEq, Repr

/-- Decimal digits of a natural number (fuelled so that it reduces in the
    kernel; the fuel `n+1` always suffices). -/
def natCharsAux : Nat → Nat → List Char
  | 0, _ => []
  | fuel + 1, n =>
    if n < 10 then [Char.ofNat (48 + n)]
    else natCharsAux fuel (n / 10) ++ [Char.ofNat (48 + n % 10)]

/-- Rust `Display` of a natural number. -/
def natChars (n : Nat) : List Char := natCharsAux (n + 1) n

/-- Rust `Display` of a signed integer (`i32`/`i64`). -/
def intChars (i : Int) : List Char :=
  if i < 0 then '-' :: natChars i.natAbs else natChars i.toNat

/-- `main.rs:360`: `let status_str = if exit_code == 0 { "ok" } else { "error" }`. -/
def statusStr (exitCode : Int) : List Char :=
  if exitCode = 0 then "ok".data else "error".data

/-- The arguments of `write_record`, bundled. -/
structure RecArgs where
  rommyVersion : List Char
  label : Option (List Char)
  cwd : List Char
  user : Option (List Char)
  host : Option (List Char)
  command : RommyCommand
  startTs : List Char
  endTs : List Char
  durationMs : Int
  outPath : List Char
  statusS : List Char
  exitCode : Int
  stdoutBytes : List Char
  stderrBytes : List Char
deriving DecidableEq, Repr

/-- One `writeln!` line: the text plus `'\n'`. -/
def wline (s : List Char) : List Char := s ++ ['\n']

/-- A `writeln!(f, "key: value")` META line (without the newline):
    `key ++ ": " ++ value`. -/
def mkKv (key v : List Char) : List Char := key ++ ':' :: v

/-- `writeln!` for an optional META field (`label`, `user`, `host`). -/
def optKv (key : List Char) : Option (List Char) → List Char
  | none => []
  | some v => wline (mkKv key (' ' :: v))

/-- The trailing-newline normalization applied to the captured stdout and
    stderr bytes: append `'\n'` iff the bytes are non-empty and do not
    already end in `'\n'`. -/
def normTail (b : List Char) : List Char :=
  if b = [] ∨ b.getLast? = some '\n' then b else b ++ ['\n']

/-- The command-descriptor META line, without its newline
    (`script_path:` or `command_line:`). -/
def cmdMetaKv : RommyCommand → List Char
  | .script p _ => mkKv "script_path".data (' ' :: p)
  | .line l => mkKv "command_line".data (' ' :: l)

/-- The command-descriptor META line (`script_path:` or `command_line:`). -/
def cmdMetaLine (c : RommyCommand) : List Char := wline (cmdMetaKv c)

/-- The COMMAND block body bytes: raw script content, or `"$ line\n"`. -/
def cmdBodyBytes : RommyCommand → List Char
  | .script _ content => content
  | .line l => wline ('$' :: ' ' :: l)

/-- `write_record` (`main.rs:194-269`): the byte sequence the encoder
    appends to the open file, one `writeln!`/`write_all` chunk at a time. -/
def write_record (a : RecArgs) : List Char :=
  wline metaMarker ++
  wline (mkKv "rommy_version".data (' ' :: a.rommyVersion)) ++
  optKv "label".data a.label ++
  wline (mkKv "cwd".data (' ' :: a.cwd)) ++
  optKv "user".data a.user ++
  optKv "host".data a.host ++
  cmdMetaLine a.command ++
  wline (mkKv "start_ts".data (' ' :: a.startTs)) ++
  wline (mkKv "end_ts".data (' ' :: a.endTs)) ++
  wline (mkKv "duration_ms".data (' ' :: intChars a.durationMs)) ++
  wline (mkKv "output_path".data (' ' :: a.outPath)) ++
  wline (mkKv "status".data (' ' :: a.statusS)) ++
  wline (mkKv "exit_code".data (' ' :: intChars a.exitCode)) ++
  wline endMarker ++
  wline commandMarker ++
  cmdBodyBytes a.command ++
  wline endMarker ++
  wline stdoutMarker ++
  normTail a.stdoutBytes ++
  wline endMarker ++
  wline stderrMarker ++
  normTail a.stderrBytes ++
  wline endMarker

/-! ## `src/main.rs` — the atomic write path of `run` (lines 396-459)

The filesystem effects of the write path are embedded as explicit state
passing over the two files the code touches (the destination and its
temporary sidecar), with a `FailSpec` oracle injecting an I/O failure at
any of the fallible steps.  A failing step leaves the state it had reached
so far; the wrapper then performs the best-effort `remove_file(&tmp_path)`
of `main.rs:456-459`. -/

/-- The destination file and the temporary sidecar (`none` = absent). -/
structure FsSt where
  dest : Option (List Char)
  tmp : Option (List Char)
deriving DecidableEq, Repr

/-- Which fallible steps of the write closure fail (injected I/O errors).
    `failOpenOther` is an `open(&out_path)` error other than `NotFound`. -/
structure FailSpec where
  failCreate : Bool
  failOpenOther : Bool
  failCopy : Bool
  failWrite : Bool
  failSync : Bool
  failRename : Bool
deriving DecidableEq, Repr

def noFail : FailSpec := ⟨false, false, false, false, false, false⟩

/-- The write closure (`main.rs:397-454`): create the temp exclusively, in
    append mode copy the destination's bytes first (NotFound degrades to
    create), append the encoded record, sync, rename over the destination.
    Returns the error message (if any) and the raw filesystem state at that
    point. -/
def writeAttempt (e : FailSpec) (append : Bool) (rec : List Char)
    (s : FsSt) : Option String × FsSt :=
  -- OpenOptions::new().create_new(true): fails on injected error or if the
  -- temp path already exists.
  if e.failCreate ∨ s.tmp.isSome then (some "Cannot create temp", s)
  else
    let s1 : FsSt := { s with tmp := some [] }
    -- append mode: File::open(&out_path) + io::copy into the temp
    match append, s1.dest with
    | true, some cur =>
      if e.failOpenOther then (some "Cannot open destination", s1)
      else if e.failCopy then (some "Cannot copy existing content", s1)
      else writeAttemptRest e rec { s1 with tmp := some cur }
    | true, none =>
      -- ErrorKind::NotFound is not an error: degrade to create mode
      if e.failOpenOther then (some "Cannot open destination", s1)
      else writeAttemptRest e rec s1
    | false, _ => writeAttemptRest e rec s1
where
  /-- `write_record`, `sync_all`, `fs::rename`. -/
  writeAttemptRest (e : FailSpec) (rec : List Char) (s : FsSt) :
      Option String × FsSt :=
    if e.failWrite then (some "write failed", s)
    else
      let s2 : FsSt := { s with tmp := some ((s.tmp.getD []) ++ rec) }
      if e.failSync then (some "Cannot sync", s2)
      else if e.failRename then (some "Cannot atomically move", s2)
      else (none, { dest := s2.tmp, tmp := none })

/-- The write path with its error handler (`main.rs:456-459`): on failure
    the temporary file is removed (best effort) and the error propagates. -/
def writePath (e : FailSpec) (append : Bool) (rec : List Char)
    (s : FsSt) : Option String × FsSt :=
  match writeAttempt e append rec s with
  | (some m, s') => (some m, { s' with tmp := none })
  | (none, s') => (none, s')

/-! ## Concurrent writers (`main.rs:382-460`)

Each writer process performs, in order: acquire the exclusive sidecar lock
(blocking while another process holds it), create its private temp file,
copy the destination's current bytes into it (append mode; a missing
destination degrades to create), append its encoded record, rename the
temp over the destination, release the lock.  The interleaving semantics
lets the scheduler pick any writer at every step; a step not enabled
(acquiring a held lock, or stepping a finished writer) is rejected. -/

/-- Program counter and private temp file of one writer process. -/
structure WriterSt where
  pc : Nat
  tmp : Option (List Char)
deriving DecidableEq, Repr

/-- Shared state: the destination file, the lock holder, all writers. -/
structure SysSt where
  dest : Option (List Char)
  lock : Option Nat
  ws : List WriterSt
deriving DecidableEq, Repr

/-- All writers at `pc = 0`, destination missing, lock free. -/
def initSys (n : Nat) : SysSt := ⟨none, none, List.replicate n ⟨0, none⟩⟩

/-- One step of writer `i` (`bs` lists each writer's encoded record).
    pc 0: `lock_exclusive` — blocks unless the lock is free.
    pc 1: create the temp file exclusively (empty).
    pc 2: copy the destination's bytes into the temp (append mode;
          NotFound degrades to create).
    pc 3: `write_record` — append the encoded record to the temp.
    pc 4: `fs::rename` the temp over the destination.
    pc 5: `unlock`.  pc 6: finished. -/
def wstep (bs : List (List Char)) (s : SysSt) (i : Nat) : Option SysSt :=
  match s.ws.get? i with
  | none => none
  | some w =>
    match w.pc with
    | 0 =>
      if s.lock = none then
        some { s with lock := some i, ws := s.ws.set i ({ w with pc := 1 }) }
      else none
    | 1 => some { s with ws := s.ws.set i ({ pc := 2, tmp := some [] }) }
    | 2 => some { s with ws := s.ws.set i ({ pc := 3, tmp := some (s.dest.getD []) }) }
    | 3 =>
      some { s with
               ws := s.ws.set i ({ pc := 4, tmp := some ((w.tmp.getD []) ++ bs.getD i []) }) }
    | 4 => some { s with dest := some (w.tmp.getD []),
                         ws := s.ws.set i ({ pc := 5, tmp := none }) }
    | 5 => some { s with lock := none, ws := s.ws.set i ({ w with pc := 6 }) }
    | _ => none

/-- Run a schedule (a list of writer indices) from a state. -/
def runSys (bs : List (List Char)) : SysSt → List Nat → Option SysSt
  | s, [] => some s
  | s, i :: acts =>
    match wstep bs s i with
    | some s' => runSys bs s' acts
    | none => none

/-- Every writer has completed its append. -/
def allDone (s : SysSt) : Prop := ∀ w ∈ s.ws, w.pc = 6

/-! ## Derived descriptions of the encoder's output and its parse

These definitions are not part of the embedded source; they describe, for
well-formed arguments, the line structure `write_record` emits and the
record `parse_str` reconstructs from it.  The round-trip theorems prove
the descriptions correct. -/

/-- A text chunk containing neither `'\n'` nor `'\r'` (one emitted line). -/
def noNl (s : List Char) : Prop := '\n' ∉ s ∧ '\r' ∉ s

/-- A line that the parser treats as plain block content: not a begin
    marker and not the end marker. -/
def plainLine (l : List Char) : Prop :=
  from_marker l = none ∧ trim l ≠ endMarker

/-- Captured bytes that survive the round trip: no `'\r'`, no leading
    newline, and no line of the normalized body looks like a marker. -/
def GoodBody (b : List Char) : Prop :=
  '\r' ∉ b ∧ b.head? ≠ some '\n' ∧ ∀ l ∈ lines (normTail b), plainLine l

/-- Well-formedness of the command argument. -/
def GoodCmd : RommyCommand → Prop
  | .line l => noNl l
  | .script p content =>
      noNl p ∧ '\r' ∉ content ∧ content.getLast? = some '\n' ∧
      content.head? ≠ some '\n' ∧ ∀ l ∈ lines content, plainLine l

/-- Well-formedness of a full argument bundle: every META field fits on
    one line and the bodies survive the round trip. -/
def WfArgs (a : RecArgs) : Prop :=
  noNl a.rommyVersion ∧ (∀ v ∈ a.label, noNl v) ∧ noNl a.cwd ∧
  (∀ v ∈ a.user, noNl v) ∧ (∀ v ∈ a.host, noNl v) ∧
  GoodCmd a.command ∧ noNl a.startTs ∧ noNl a.endTs ∧ noNl a.outPath ∧
  noNl a.statusS ∧ GoodBody a.stdoutBytes ∧ GoodBody a.stderrBytes

/-- The value the parser stores for an emitted `"key: value"` line. -/
def storedVal (v : List Char) : List Char := trim (' ' :: v)

/-- The lines of an optional META field. -/
def optLines (key : List Char) : Option (List Char) → List (List Char)
  | none => []
  | some v => [mkKv key (' ' :: v)]

/-- META-map insertion for an optional field. -/
def optIns (key : List Char) (o : Option (List Char))
    (m : List (List Char × List Char)) : List (List Char × List Char) :=
  match o with
  | none => m
  | some v => metaInsert key (storedVal v) m

/-- The META-map entry of the command-descriptor line. -/
def cmdKvPair : RommyCommand → List Char × List Char
  | .script p _ => ("script_path".data, storedVal p)
  | .line l => ("command_line".data, storedVal l)

/-- The META association list `parse_str` builds for one encoded record
    (most recent insertion first). -/
def expectedMeta (a : RecArgs) : List (List Char × List Char) :=
  metaInsert "exit_code".data (storedVal (intChars a.exitCode))
    (metaInsert "status".data (storedVal a.statusS)
      (metaInsert "output_path".data (storedVal a.outPath)
        (metaInsert "duration_ms".data (storedVal (intChars a.durationMs))
          (metaInsert "end_ts".data (storedVal a.endTs)
            (metaInsert "start_ts".data (storedVal a.startTs)
              (metaInsert (cmdKvPair a.command).1 (cmdKvPair a.command).2
                (optIns "host".data a.host
                  (optIns "user".data a.user
                    (metaInsert "cwd".data (storedVal a.cwd)
                      (optIns "label".data a.label
                        (metaInsert "rommy_version".data
                          (storedVal a.rommyVersion) [])))))))))))

/-- The parsed COMMAND body of an encoded record. -/
def expectedCmd : RommyCommand → List Char
  | .line l => '$' :: ' ' :: l
  | .script _ content => chomp content

/-- The record `parse_str` reconstructs from one encoded record. -/
def expectedRec (a : RecArgs) : RommyRecord :=
  ⟨expectedMeta a, expectedCmd a.command,
   chomp a.stdoutBytes, chomp a.stderrBytes⟩

/-- The lines of the COMMAND block body. -/
def cmdBodyLines : RommyCommand → List (List Char)
  | .line l => ['$' :: ' ' :: l]
  | .script _ content => lines content

/-- The META key/value lines of one encoded record, in emission order. -/
def metaKvLines (a : RecArgs) : List (List Char) :=
  mkKv "rommy_version".data (' ' :: a.rommyVersion) ::
  (optLines "label".data a.label ++
   mkKv "cwd".data (' ' :: a.cwd) ::
   (optLines "user".data a.user ++
    (optLines "host".data a.host ++
     cmdMetaKv a.command ::
     mkKv "start_ts".data (' ' :: a.startTs) ::
     mkKv "end_ts".data (' ' :: a.endTs) ::
     mkKv "duration_ms".data (' ' :: intChars a.durationMs) ::
     mkKv "output_path".data (' ' :: a.outPath) ::
     mkKv "status".data (' ' :: a.statusS) ::
     [mkKv "exit_code".data (' ' :: intChars a.exitCode)])))

/-- The lines of one encoded record after the leading META marker. -/
def recordTail (a : RecArgs) : List (List Char) :=
  metaKvLines a ++
  endMarker :: commandMarker ::
  (cmdBodyLines a.command ++
   endMarker :: stdoutMarker ::
   (lines (normTail a.stdoutBytes) ++
    endMarker :: stderrMarker ::
    (lines (normTail a.stderrBytes) ++ [endMarker])))

/-- The lines of one encoded record. -/
def recordLines (a : RecArgs) : List (List Char) :=
  metaMarker :: recordTail a

/-- The parser state immediately after finishing a record `r` (with `o`
    the records already emitted before it). -/
def afterPS (o : List RommyRecord) (r : RommyRecord) : PState :=
  ⟨o, some r.meta, r.command, r.stdout, r.stderr, true, true, true, true, .idle⟩

/-- First line, then the flattened tails prefixed by newlines: what the
    parser's accumulation produces for a non-empty list of lines. -/
def joinNl : List (List Char) → List Char
  | [] => []
  | l :: ls => l ++ (ls.map (fun x => '\n' :: x)).flatten

/-- Default used only to read list elements whose index is in bounds. -/
def defaultArgs : RecArgs :=
  ⟨[], none, [], none, none, .line [], [], [], 0, [], [], 0, [], []⟩

/-- The bytes of the encoded record before the STDOUT block: the META and
    COMMAND blocks. -/
def headerPart (a : RecArgs) : List Char :=
  wline metaMarker ++
  wline (mkKv "rommy_version".data (' ' :: a.rommyVersion)) ++
  optKv "label".data a.label ++
  wline (mkKv "cwd".data (' ' :: a.cwd)) ++
  optKv "user".data a.user ++
  optKv "host".data a.host ++
  cmdMetaLine a.command ++
  wline (mkKv "start_ts".data (' ' :: a.startTs)) ++
  wline (mkKv "end_ts".data (' ' :: a.endTs)) ++
  wline (mkKv "duration_ms".data (' ' :: intChars a.durationMs)) ++
  wline (mkKv "output_path".data (' ' :: a.outPath)) ++
  wline (mkKv "status".data (' ' :: a.statusS)) ++
  wline (mkKv "exit_code".data (' ' :: intChars a.exitCode)) ++
  wline endMarker ++
  wline commandMarker ++
  cmdBodyBytes a.command ++
  wline endMarker

/-- The bytes of the encoded STDOUT block. -/
def stdoutSection (b : List Char) : List Char :=
  wline stdoutMarker ++ normTail b ++ wline endMarker

/-- The bytes of the encoded STDERR block. -/
def stderrSection (b : List Char) : List Char :=
  wline stderrMarker ++ normTail b ++ wline endMarker

/-- Destination content after the writers listed in `ord` (in completion
    order) have appended their records; `none` before the first rename. -/
def ordDest (bs : List (List Char)) (ord : List Nat) : Option (List Char) :=
  if ord = [] then none
  else some ((ord.map (fun j => bs.getD j [])).flatten)

/-- Invariant of the concurrent-writer system: `ord` lists the writers
    whose rename has completed, in completion order.  The lock discipline
    ties every intermediate program counter to the current lock holder,
    and each writer's temp file to the destination it copied. -/
def WInv (bs : List (List Char)) (ord : List Nat) (s : SysSt) : Prop :=
  s.ws.length = bs.length ∧
  ord.Nodup ∧
  (∀ i ∈ ord, i < bs.length) ∧
  (∀ i w, s.ws.get? i = some w → (5 ≤ w.pc ↔ i ∈ ord)) ∧
  s.dest = ordDest bs ord ∧
  (match s.lock with
   | none => ∀ w ∈ s.ws, w.pc = 0 ∨ w.pc = 6
   | some i => ∃ w, s.ws.get? i = some w ∧ 1 ≤ w.pc ∧ w.pc ≤ 5 ∧
       ∀ j wj, j ≠ i → s.ws.get? j = some wj → wj.pc = 0 ∨ wj.pc = 6) ∧
  (∀ i w, s.ws.get? i = some w →
     w.pc ≤ 6 ∧
     (w.pc = 0 ∨ w.pc = 1 → w.tmp = none) ∧
     (w.pc = 2 → w.tmp = some []) ∧
     (w.pc = 3 → w.tmp = some (s.dest.getD [])) ∧
     (w.pc = 4 → w.tmp = some (s.dest.getD [] ++ bs.getD i [])) ∧
     (5 ≤ w.pc → w.tmp = none))

instance {ε α : Type} [DecidableEq ε] [DecidableEq α] :
    DecidableEq (Except ε α) := fun x y =>
  match x, y with
  | .ok a, .ok b =>
    if h : a = b then .isTrue (by rw [h]) else .isFalse (by simp [h])
  | .error e, .error f =>
    if h : e = f then .isTrue (by rw [h]) else .isFalse (by simp [h])
  | .ok _, .error _ => .isFalse (by simp)
  | .error _, .ok _ => .isFalse (by simp)

instance (s : List Char) : Decidable (noNl s) := by
  unfold noNl; infer_instance

instance (l : List Char) : Decidable (plainLine l) := by
  unfold plainLine; infer_instance

instance (b : List Char) : Decidable (GoodBody b) := by
  unfold GoodBody; infer_instance

instance (c : RommyCommand) : Decidable (GoodCmd c) := by
  cases c <;> (unfold GoodCmd; infer_instance)

instance (a : RecArgs) : Decidable (WfArgs a) := by
  unfold WfArgs; infer_instance

instance (s : SysSt) : Decidable (allDone s) := by
  unfold allDone; infer_instance

/-! ## Lemmas: text primitives -/

theorem dropWhile_append_single {p : Char → Bool} {c : Char}
    (hc : p c = false) (l : List Char) :
    (l ++ [c]).dropWhile p = l.dropWhile p ++ [c] := by
  induction l with
  | nil => simp [List.dropWhile, hc]
  | cons a l ih =>
    by_cases h : p a <;> simp [List.dropWhile, h, ih]

theorem rtrim_cons {c : Char} (hc : isWs c = false) (s : List Char) :
    rtrim (c :: s) = c :: rtrim s := by
  unfold rtrim
  rw [List.reverse_cons, dropWhile_append_single hc, List.reverse_append]
  simp

theorem ltrim_cons {c : Char} (hc : isWs c = false) (s : List Char) :
    ltrim (c :: s) = c :: s := by
  unfold ltrim; simp [List.dropWhile, hc]

theorem trim_cons {c : Char} (hc : isWs c = false) (s : List Char) :
    trim (c :: s) = c :: rtrim s := by
  unfold trim; rw [rtrim_cons hc, ltrim_cons hc]

theorem ne_of_head {l m : List Char} {c d : Char} (hl : l.head? = some c)
    (hm : m.head? = some d) (h : c ≠ d) : l ≠ m := by
  intro he; rw [he, hm] at hl; exact h (Option.some.inj hl).symm

theorem trim_cons_head {c : Char} (hc : isWs c = false) (s : List Char) :
    (trim (c :: s)).head? = some c := by rw [trim_cons hc]; rfl

theorem from_marker_cons_none {c : Char} {s : List Char}
    (hws : isWs c = false) (hlt : c ≠ '<') :
    from_marker (c :: s) = none := by
  have hh := trim_cons_head hws s
  unfold from_marker
  rw [if_neg (ne_of_head hh (show metaMarker.head? = some '<' from rfl) hlt),
      if_neg (ne_of_head hh (show commandMarker.head? = some '<' from rfl) hlt),
      if_neg (ne_of_head hh (show stdoutMarker.head? = some '<' from rfl) hlt),
      if_neg (ne_of_head hh (show stderrMarker.head? = some '<' from rfl) hlt)]

theorem trim_cons_ne_end {c : Char} {s : List Char}
    (hws : isWs c = false) (hlt : c ≠ '<') :
    trim (c :: s) ≠ endMarker :=
  ne_of_head (trim_cons_head hws s)
    (show endMarker.head? = some '<' from rfl) hlt

theorem trim_cons_ne_nil {c : Char} {s : List Char} (hws : isWs c = false) :
    trim (c :: s) ≠ [] := by
  intro h
  have := trim_cons_head hws s
  rw [h] at this; exact Option.noConfusion this

theorem plainLine_cons {c : Char} {s : List Char}
    (hws : isWs c = false) (hlt : c ≠ '<') : plainLine (c :: s) :=
  ⟨from_marker_cons_none hws hlt, trim_cons_ne_end hws hlt⟩

theorem splitOnceColon_append {k : List Char} (v : List Char)
    (h : ':' ∉ k) : splitOnceColon (k ++ ':' :: v) = some (k, v) := by
  induction k with
  | nil => simp [splitOnceColon]
  | cons c k ih =>
    have hc : c ≠ ':' := fun hh => h (hh ▸ List.mem_cons_self c k)
    have ih' := ih (fun hm => h (List.mem_cons_of_mem c hm))
    rw [List.cons_append]
    simp [splitOnceColon, hc, ih']

/-! ## Lemmas: `lines`, `chomp`, body accumulation -/

theorem lines_cons_nl (r : List Char) : lines ('\n' :: r) = [] :: lines r := by
  simp [lines]

theorem lines_cons_of_ne {c : Char} (r : List Char) (hc : c ≠ '\n') :
    lines (c :: r) =
      match lines r with
      | [] => [[c]]
      | l :: ls => (c :: l) :: ls := by
  simp [lines, hc]

theorem lines_ne_nil {s : List Char} (h : s ≠ []) : lines s ≠ [] := by
  match s with
  | c :: r =>
    by_cases hc : c = '\n'
    · subst hc; rw [lines_cons_nl]; exact List.cons_ne_nil _ _
    · rw [lines_cons_of_ne r hc]
      cases lines r <;> exact List.cons_ne_nil _ _

theorem lines_append {s : List Char} (t : List Char)
    (h : s = [] ∨ s.getLast? = some '\n') :
    lines (s ++ t) = lines s ++ lines t := by
  induction s with
  | nil => rfl
  | cons c r ih =>
    rcases h with h | h
    · exact absurd h (List.cons_ne_nil c r)
    by_cases hr : r = []
    · subst hr
      have hc : c = '\n' := by simpa using h
      subst hc
      rw [List.singleton_append, lines_cons_nl]; rfl
    · obtain ⟨b, l, rfl⟩ := List.exists_cons_of_ne_nil hr
      have h' : b :: l = [] ∨ (b :: l).getLast? = some '\n' := by
        right; rwa [List.getLast?_cons_cons] at h
      have ih' := ih h'
      obtain ⟨l₀, ls₀, hls⟩ :=
        List.exists_cons_of_ne_nil (lines_ne_nil (List.cons_ne_nil b l))
      by_cases hc : c = '\n'
      · subst hc
        rw [List.cons_append, lines_cons_nl, lines_cons_nl, ih',
          List.cons_append]
      · rw [List.cons_append, lines_cons_of_ne _ hc, lines_cons_of_ne _ hc,
          ih', hls, List.cons_append]
        simp

theorem lines_wline {x : List Char} (h : '\n' ∉ x) : lines (wline x) = [x] := by
  induction x with
  | nil => rfl
  | cons c x ih =>
    have hc : c ≠ '\n' := fun hh => h (hh ▸ List.mem_cons_self c x)
    have ih' := ih (fun hm => h (List.mem_cons_of_mem c hm))
    show lines (c :: wline x) = [c :: x]
    rw [lines_cons_of_ne _ hc, ih']

theorem wline_getLast? (x : List Char) : (wline x).getLast? = some '\n' := by
  simp [wline]

theorem lines_wline_append {x : List Char} (t : List Char) (h : '\n' ∉ x) :
    lines (wline x ++ t) = x :: lines t := by
  rw [lines_append t (Or.inr (wline_getLast? x)), lines_wline h]; rfl

theorem normTail_nl (b : List Char) :
    normTail b = [] ∨ (normTail b).getLast? = some '\n' := by
  by_cases h : b = [] ∨ b.getLast? = some '\n'
  · rw [normTail, if_pos h]
    rcases h with h | h
    · exact Or.inl h
    · exact Or.inr h
  · rw [normTail, if_neg h]
    right; simp

theorem lines_normTail_append (b t : List Char) :
    lines (normTail b ++ t) = lines (normTail b) ++ lines t :=
  lines_append t (normTail_nl b)

theorem chomp_cons {r : List Char} (c : Char) (h : r ≠ []) :
    chomp (c :: r) = c :: chomp r := by
  obtain ⟨b, l, rfl⟩ := List.exists_cons_of_ne_nil h
  unfold chomp
  rw [List.getLast?_cons_cons]
  by_cases hb : (b :: l).getLast? = some '\n' <;> simp [hb]

theorem chomp_normTail (b : List Char) : chomp (normTail b) = chomp b := by
  by_cases h : b = [] ∨ b.getLast? = some '\n'
  · rw [normTail, if_pos h]
  · rw [normTail, if_neg h]
    push_neg at h
    unfold chomp
    rw [if_pos (by simp), if_neg h.2, List.dropLast_concat]

theorem joinNl_lines (s : List Char) : joinNl (lines s) = chomp s := by
  induction s with
  | nil => rfl
  | cons c r ih =>
    by_cases hr : r = []
    · subst hr
      by_cases hc : c = '\n'
      · subst hc; rfl
      · rw [lines_cons_of_ne _ hc]
        show joinNl [[c]] = chomp [c]
        simp [joinNl, chomp, hc]
    · obtain ⟨l, ls, hls⟩ :=
        List.exists_cons_of_ne_nil (lines_ne_nil hr)
      rw [hls] at ih
      simp only [joinNl, List.map_cons, List.flatten_cons] at ih
      by_cases hc : c = '\n'
      · subst hc
        rw [lines_cons_nl, hls, chomp_cons _ hr, ← ih]
        simp [joinNl]
      · rw [lines_cons_of_ne _ hc, hls, chomp_cons _ hr, ← ih]
        simp [joinNl]

theorem foldl_accLine_nonempty {acc : List Char} (ls : List (List Char))
    (h : acc ≠ []) :
    List.foldl accLine acc ls =
      acc ++ (ls.map (fun x => '\n' :: x)).flatten := by
  induction ls generalizing acc with
  | nil => simp
  | cons l ls ih =>
    have h2 : accLine acc l = acc ++ '\n' :: l := by simp [accLine, h]
    rw [List.foldl_cons, h2, ih (by simp)]
    simp

theorem foldl_accLine_joinNl {ls : List (List Char)}
    (h : ∀ l₀, ls.head? = some l₀ → l₀ ≠ []) :
    List.foldl accLine [] ls = joinNl ls := by
  cases ls with
  | nil => rfl
  | cons l ls =>
    have hl : l ≠ [] := h l rfl
    have h0 : accLine [] l = l := by simp [accLine]
    rw [List.foldl_cons, h0, foldl_accLine_nonempty ls hl]
    rfl

theorem lines_head_ne_nil {c : Char} {r : List Char} (hc : c ≠ '\n') :
    ∀ l₀, (lines (c :: r)).head? = some l₀ → l₀ ≠ [] := by
  intro l₀ h
  rw [lines_cons_of_ne _ hc] at h
  cases hlr : lines r with
  | nil => rw [hlr] at h; simp at h; subst h; exact List.cons_ne_nil _ _
  | cons l ls =>
    rw [hlr] at h; simp at h; subst h; exact List.cons_ne_nil _ _

theorem foldl_accLine_lines {s : List Char} (h : s.head? ≠ some '\n') :
    List.foldl accLine [] (lines s) = chomp s := by
  cases s with
  | nil => rfl
  | cons c r =>
    have hc : c ≠ '\n' := fun hh => h (by rw [hh]; rfl)
    rw [foldl_accLine_joinNl (lines_head_ne_nil hc), joinNl_lines]

/-- Bodies: the parser's accumulation over the lines of the normalized
    body recovers the original bytes up to one trailing newline. -/
theorem foldl_accLine_normTail {b : List Char} (h : b.head? ≠ some '\n') :
    List.foldl accLine [] (lines (normTail b)) = chomp b := by
  have hh : (normTail b).head? ≠ some '\n' := by
    by_cases hb : b = [] ∨ b.getLast? = some '\n'
    · rwa [normTail, if_pos hb]
    · rw [normTail, if_neg hb]
      push_neg at hb
      obtain ⟨d, l, rfl⟩ := List.exists_cons_of_ne_nil hb.1
      simpa using h
  rw [foldl_accLine_lines hh, chomp_normTail]

/-! ## Lemmas: markers, digits, stored values -/

theorem from_marker_meta : from_marker metaMarker = some .meta := by decide

theorem from_marker_command : from_marker commandMarker = some .command := by
  decide

theorem from_marker_stdout : from_marker stdoutMarker = some .stdout := by
  decide

theorem from_marker_stderr : from_marker stderrMarker = some .stderr := by
  decide

theorem from_marker_end : from_marker endMarker = none := by decide

theorem trim_endMarker : trim endMarker = endMarker := by decide

theorem natCharsAux_digits (fuel : Nat) :
    ∀ n, ∀ c ∈ natCharsAux fuel n, 48 ≤ c.toNat ∧ c.toNat ≤ 57 := by
  induction fuel with
  | zero => intro n c hc; simp [natCharsAux] at hc
  | succ fuel ih =>
    intro n c hc
    unfold natCharsAux at hc
    by_cases h : n < 10
    · rw [if_pos h] at hc
      simp at hc
      subst hc
      interval_cases n <;> decide
    · rw [if_neg h] at hc
      simp at hc
      rcases hc with hc | hc
      · exact ih _ _ hc
      · subst hc
        have h10 : n % 10 < 10 := Nat.mod_lt _ (by omega)
        set k := n % 10 with hk
        interval_cases k <;> decide

theorem digit_props {c : Char} (h : 48 ≤ c.toNat ∧ c.toNat ≤ 57) :
    isWs c = false ∧ c ≠ '\n' ∧ c ≠ '\r' := by
  have hne : ∀ d : Char, d.toNat < 48 → c ≠ d := by
    intro d hd he; subst he; omega
  refine ⟨?_, hne '\n' (by decide), hne '\r' (by decide)⟩
  unfold isWs
  rw [decide_eq_false (hne ' ' (by decide)),
      decide_eq_false (hne '\t' (by decide)),
      decide_eq_false (hne '\n' (by decide)),
      decide_eq_false (hne '\r' (by decide))]
  rfl

theorem intChars_props (i : Int) :
    ∀ c ∈ intChars i, isWs c = false ∧ c ≠ '\n' ∧ c ≠ '\r' := by
  intro c hc
  unfold intChars at hc
  by_cases h : i < 0
  · rw [if_pos h] at hc
    rcases List.mem_cons.1 hc with hc | hc
    · subst hc; decide
    · exact digit_props (natCharsAux_digits _ _ _ hc)
  · rw [if_neg h] at hc
    exact digit_props (natCharsAux_digits _ _ _ hc)

theorem noNl_intChars (i : Int) : noNl (intChars i) :=
  ⟨fun hm => ((intChars_props i _ hm).2.1 rfl).elim,
   fun hm => ((intChars_props i _ hm).2.2 rfl).elim⟩

theorem dropWhile_eq_self {p : Char → Bool} {l : List Char}
    (h : ∀ c ∈ l, p c = false) : l.dropWhile p = l := by
  cases l with
  | nil => rfl
  | cons c r => simp [List.dropWhile, h c (List.mem_cons_self c r)]

theorem storedVal_eq {v : List Char} (h : ∀ c ∈ v, isWs c = false) :
    storedVal v = v := by
  rcases List.eq_nil_or_concat v with rfl | ⟨xs, d, rfl⟩
  · decide
  · simp only [List.concat_eq_append] at h ⊢
    have hd : isWs d = false := h d (by simp)
    have hrt : rtrim (' ' :: (xs ++ [d])) = ' ' :: (xs ++ [d]) := by
      unfold rtrim
      rw [show (' ' :: (xs ++ [d])).reverse = d :: (xs.reverse ++ [' ']) by
            simp]
      rw [List.dropWhile_cons, if_neg (by simp [hd])]
      simp
    unfold storedVal trim
    rw [hrt]
    unfold ltrim
    rw [List.dropWhile_cons, if_pos (by decide),
        dropWhile_eq_self (fun c hc => h c (by
          rcases List.mem_append.1 hc with hc | hc
          · exact List.mem_append.2 (Or.inl hc)
          · exact List.mem_append.2 (Or.inr hc)))]

theorem storedVal_intChars (i : Int) : storedVal (intChars i) = intChars i :=
  storedVal_eq (fun c hc => (intChars_props i c hc).1)

theorem replaceCrLf_cons_ne {c : Char} {r : List Char} (hc : c ≠ '\r') :
    replaceCrLf (c :: r) = c :: replaceCrLf r := by
  rw [replaceCrLf.eq_def]
  split
  · next heq => exact absurd (List.cons.inj heq).1 hc
  · next heq =>
    obtain ⟨h1, h2⟩ := List.cons.inj heq
    rw [h1, h2]
  · next heq => exact absurd heq (List.cons_ne_nil _ _)

theorem replaceCrLf_eq_self {s : List Char} (h : '\r' ∉ s) :
    replaceCrLf s = s := by
  induction s with
  | nil => rfl
  | cons c r ih =>
    have hc : c ≠ '\r' := fun he => h (he ▸ List.mem_cons_self _ _)
    rw [replaceCrLf_cons_ne hc, ih (fun hm => h (List.mem_cons_of_mem _ hm))]

/-! ## Lemmas: characters absent from the encoder's output -/

theorem not_mem_append {c : Char} {l1 l2 : List Char}
    (h1 : c ∉ l1) (h2 : c ∉ l2) : c ∉ l1 ++ l2 := by
  simp [h1, h2]

theorem cr_wline {x : List Char} (h : '\r' ∉ x) : '\r' ∉ wline x := by
  simp [wline, h]

theorem cr_kv {key v : List Char} (hk : '\r' ∉ key) (hv : '\r' ∉ v) :
    '\r' ∉ wline (mkKv key (' ' :: v)) := by
  simp [wline, mkKv, hk, hv]

theorem cr_optKv {key : List Char} {o : Option (List Char)}
    (hk : '\r' ∉ key) (ho : ∀ v ∈ o, noNl v) : '\r' ∉ optKv key o := by
  cases o with
  | none => simp [optKv]
  | some v => exact cr_kv hk (ho v rfl).2

theorem cr_cmdMetaLine {c : RommyCommand} (h : GoodCmd c) :
    '\r' ∉ cmdMetaLine c := by
  cases c with
  | line l => exact cr_kv (by decide) h.2
  | script p content => exact cr_kv (by decide) h.1.2

theorem cr_cmdBody {c : RommyCommand} (h : GoodCmd c) :
    '\r' ∉ cmdBodyBytes c := by
  cases c with
  | line l =>
    show '\r' ∉ wline ('$' :: ' ' :: l)
    simp [wline, h.2]
  | script p content => exact h.2.1

theorem cr_normTail {b : List Char} (h : '\r' ∉ b) : '\r' ∉ normTail b := by
  unfold normTail
  by_cases hb : b = [] ∨ b.getLast? = some '\n' <;> simp [hb, h]

theorem cr_write_record {a : RecArgs} (h : WfArgs a) :
    '\r' ∉ write_record a := by
  obtain ⟨h1, h2, h3, h4, h5, h6, h7, h8, h9, h10, h11, h12⟩ := h
  simp only [write_record, List.append_assoc]
  refine not_mem_append (by decide) (not_mem_append (cr_kv (by decide) h1.2)
    (not_mem_append (cr_optKv (by decide) h2)
    (not_mem_append (cr_kv (by decide) h3.2)
    (not_mem_append (cr_optKv (by decide) h4)
    (not_mem_append (cr_optKv (by decide) h5)
    (not_mem_append (cr_cmdMetaLine h6)
    (not_mem_append (cr_kv (by decide) h7.2)
    (not_mem_append (cr_kv (by decide) h8.2)
    (not_mem_append (cr_kv (by decide) (noNl_intChars a.durationMs).2)
    (not_mem_append (cr_kv (by decide) h9.2)
    (not_mem_append (cr_kv (by decide) h10.2)
    (not_mem_append (cr_kv (by decide) (noNl_intChars a.exitCode).2)
    (not_mem_append (by decide)
    (not_mem_append (by decide)
    (not_mem_append (cr_cmdBody h6)
    (not_mem_append (by decide)
    (not_mem_append (by decide)
    (not_mem_append (cr_normTail h11.1)
    (not_mem_append (by decide)
    (not_mem_append (by decide)
    (not_mem_append (cr_normTail h12.1) (by decide))))))))))))))))))))))

/-! ## Lemmas: line structure of the encoder's output -/

theorem nl_kv {key v : List Char} (hk : '\n' ∉ key) (hv : '\n' ∉ v) :
    '\n' ∉ mkKv key (' ' :: v) := by
  simp [mkKv, hk, hv]

theorem lines_optKv_append {key : List Char} {o : Option (List Char)}
    (t : List Char) (hk : '\n' ∉ key) (ho : ∀ v ∈ o, noNl v) :
    lines (optKv key o ++ t) = optLines key o ++ lines t := by
  cases o with
  | none => simp [optKv, optLines]
  | some v =>
    show lines (wline (mkKv key (' ' :: v)) ++ t) = _
    rw [lines_wline_append t (nl_kv hk (ho v rfl).1)]
    rfl

theorem lines_cmdMetaLine_append {c : RommyCommand} (t : List Char)
    (h : GoodCmd c) :
    lines (cmdMetaLine c ++ t) = cmdMetaKv c :: lines t := by
  cases c with
  | line l =>
    simp only [cmdMetaLine, cmdMetaKv]
    rw [lines_wline_append t (nl_kv (by decide) h.1)]
  | script p content =>
    simp only [cmdMetaLine, cmdMetaKv]
    rw [lines_wline_append t (nl_kv (by decide) h.1.1)]

theorem lines_cmdBody_append {c : RommyCommand} (t : List Char)
    (h : GoodCmd c) :
    lines (cmdBodyBytes c ++ t) = cmdBodyLines c ++ lines t := by
  cases c with
  | line l =>
    show lines (wline ('$' :: ' ' :: l) ++ t) = _
    rw [lines_wline_append t (by simp [h.1])]
    rfl
  | script p content =>
    show lines (content ++ t) = lines content ++ lines t
    exact lines_append t (Or.inr h.2.2.1)

theorem lines_write_record {a : RecArgs} (h : WfArgs a) :
    lines (write_record a) = recordLines a := by
  obtain ⟨h1, h2, h3, h4, h5, h6, h7, h8, h9, h10, h11, h12⟩ := h
  simp only [write_record, List.append_assoc]
  rw [lines_wline_append _ (by decide),
      lines_wline_append _ (nl_kv (by decide) h1.1),
      lines_optKv_append _ (by decide) h2,
      lines_wline_append _ (nl_kv (by decide) h3.1),
      lines_optKv_append _ (by decide) h4,
      lines_optKv_append _ (by decide) h5,
      lines_cmdMetaLine_append _ h6,
      lines_wline_append _ (nl_kv (by decide) h7.1),
      lines_wline_append _ (nl_kv (by decide) h8.1),
      lines_wline_append _ (nl_kv (by decide) (noNl_intChars a.durationMs).1),
      lines_wline_append _ (nl_kv (by decide) h9.1),
      lines_wline_append _ (nl_kv (by decide) h10.1),
      lines_wline_append _ (nl_kv (by decide) (noNl_intChars a.exitCode).1),
      lines_wline_append _ (by decide),
      lines_wline_append _ (by decide),
      lines_cmdBody_append _ h6,
      lines_wline_append _ (by decide),
      lines_wline_append _ (by decide),
      lines_normTail_append,
      lines_wline_append _ (by decide),
      lines_wline_append _ (by decide),
      lines_normTail_append,
      lines_wline (by decide)]
  simp [recordLines, recordTail, metaKvLines, List.append_assoc]

/-! ## Lemmas: single parser steps -/

theorem processLines_cons_ok {s s' : PState} {l : List Char}
    {ls : List (List Char)} (h : stepLine s l = .ok s') :
    processLines s (l :: ls) = processLines s' ls := by
  show (match stepLine s l with
        | .ok s'' => processLines s'' ls
        | .error e => (.error e : Except String PState)) = processLines s' ls
  rw [h]

theorem stepLine_marker_cont {o m cc cso cse f1 f2 f3 f4}
    {line : List Char} {b : Block} (hm : from_marker line = some b)
    (hb : b ≠ Block.meta) :
    stepLine ⟨o, some m, cc, cso, cse, f1, f2, f3, f4, .idle⟩ line =
      .ok ⟨o, some m, cc, cso, cse, f1, f2, f3, f4, .inBlock b⟩ := by
  unfold stepLine
  rw [hm]
  cases b
  · exact absurd rfl hb
  all_goals rfl

theorem stepLine_meta_fresh {o cc cso cse f1 f2 f3 f4} {line : List Char}
    (hm : from_marker line = some .meta) :
    stepLine ⟨o, none, cc, cso, cse, f1, f2, f3, f4, .idle⟩ line =
      .ok ⟨o, some [], [], [], [], false, false, false, false,
           .inBlock .meta⟩ := by
  unfold stepLine
  rw [hm]
  rfl

theorem stepLine_meta_finish {o : List RommyRecord} {r : RommyRecord}
    {line : List Char} (hm : from_marker line = some .meta) :
    stepLine (afterPS o r) line =
      .ok ⟨o ++ [r], some [], [], [], [], false, false, false, false,
           .inBlock .meta⟩ := by
  unfold stepLine afterPS
  rw [hm]
  rfl

theorem stepLine_end {o m cc cso cse f1 f2 f3 f4} {b : Block} :
    stepLine ⟨o, m, cc, cso, cse, f1, f2, f3, f4, .inBlock b⟩ endMarker =
      .ok (setSeen ⟨o, m, cc, cso, cse, f1, f2, f3, f4, .idle⟩ b) := by
  unfold stepLine
  rw [from_marker_end, if_pos trim_endMarker]
  cases b <;> rfl

theorem stepLine_content {s : PState} {l : List Char} {b : Block}
    (hb : b ≠ Block.meta) (hmode : s.mode = .inBlock b) (hpl : plainLine l) :
    stepLine s l = .ok (setBuf s b (accLine (getBuf s b) l)) := by
  unfold stepLine
  rw [hpl.1, if_neg hpl.2, hmode]
  cases b
  · exact absurd rfl hb
  all_goals rfl

theorem stepLine_kv {o m cc cso cse f1 f2 f3 f4} {key v : List Char}
    {c : Char} (hk : key.head? = some c) (hws : isWs c = false)
    (hlt : c ≠ '<') (hcol : ':' ∉ key) (htr : trim key = key) :
    stepLine ⟨o, some m, cc, cso, cse, f1, f2, f3, f4, .inBlock .meta⟩
        (mkKv key v) =
      .ok ⟨o, some (metaInsert key (trim v) m), cc, cso, cse,
           f1, f2, f3, f4, .inBlock .meta⟩ := by
  obtain ⟨key', rfl⟩ : ∃ key', key = c :: key' := by
    cases key with
    | nil => exact Option.noConfusion hk
    | cons d key' => exact ⟨key', by rw [Option.some.inj hk]⟩
  have hline : mkKv (c :: key') v = c :: (key' ++ ':' :: v) := by
    simp [mkKv]
  have hfm : from_marker (c :: (key' ++ ':' :: v)) = none :=
    from_marker_cons_none hws hlt
  have hend : trim (c :: (key' ++ ':' :: v)) ≠ endMarker :=
    trim_cons_ne_end hws hlt
  have hnil : trim (c :: (key' ++ ':' :: v)) ≠ [] :=
    trim_cons_ne_nil hws
  have hsplit : splitOnceColon (c :: (key' ++ ':' :: v)) =
      some (c :: key', v) := by
    have := splitOnceColon_append v hcol
    rw [List.cons_append] at this
    exact this
  rw [hline]
  simp only [stepLine, hfm, hend, hnil, hsplit, htr, metaInsert,
    Option.map_some']
  rfl

/-! ## Lemmas: parser runs over whole blocks -/

theorem setBuf_getBuf (s : PState) (b : Block) :
    setBuf s b (getBuf s b) = s := by
  cases b <;> rfl

theorem setBuf_mode (s : PState) (b : Block) (v : List Char) :
    (setBuf s b v).mode = s.mode := by
  cases b <;> rfl

theorem getBuf_setBuf {s : PState} {b : Block} (hb : b ≠ Block.meta)
    (v : List Char) : getBuf (setBuf s b v) b = v := by
  cases b
  · exact absurd rfl hb
  all_goals rfl

theorem setBuf_setBuf (s : PState) (b : Block) (v v' : List Char) :
    setBuf (setBuf s b v) b v' = setBuf s b v' := by
  cases b <;> rfl

theorem processLines_content {b : Block} (hb : b ≠ Block.meta)
    (ls : List (List Char)) :
    ∀ (s : PState), s.mode = .inBlock b → (∀ l ∈ ls, plainLine l) →
    ∀ rest, processLines s (ls ++ rest) =
      processLines (setBuf s b (List.foldl accLine (getBuf s b) ls)) rest := by
  induction ls with
  | nil =>
    intro s hmode hpl rest
    rw [List.nil_append, List.foldl_nil, setBuf_getBuf]
  | cons l ls ih =>
    intro s hmode hpl rest
    rw [List.cons_append,
        processLines_cons_ok
          (stepLine_content hb hmode (hpl l (List.mem_cons_self l ls))),
        ih _ (by rw [setBuf_mode]; exact hmode)
          (fun x hx => hpl x (List.mem_cons_of_mem l hx)) rest,
        List.foldl_cons, setBuf_setBuf, getBuf_setBuf hb]

theorem processLines_optKv {o' : List RommyRecord}
    {m : List (List Char × List Char)} {cc cso cse : List Char}
    {f1 f2 f3 f4 : Bool} {key : List Char} {oo : Option (List Char)}
    {c : Char} (hk : key.head? = some c) (hws : isWs c = false)
    (hlt : c ≠ '<') (hcol : ':' ∉ key) (htr : trim key = key)
    (rest : List (List Char)) :
    processLines ⟨o', some m, cc, cso, cse, f1, f2, f3, f4, .inBlock .meta⟩
        (optLines key oo ++ rest) =
      processLines ⟨o', some (optIns key oo m), cc, cso, cse,
        f1, f2, f3, f4, .inBlock .meta⟩ rest := by
  cases oo with
  | none => rfl
  | some v =>
    simp only [optLines, List.singleton_append]
    rw [processLines_cons_ok (stepLine_kv hk hws hlt hcol htr)]
    rfl

theorem processLines_cmdMeta {o' : List RommyRecord}
    {m : List (List Char × List Char)} {cc cso cse : List Char}
    {f1 f2 f3 f4 : Bool} {c : RommyCommand} (h : GoodCmd c)
    (rest : List (List Char)) :
    processLines ⟨o', some m, cc, cso, cse, f1, f2, f3, f4, .inBlock .meta⟩
        (cmdMetaKv c :: rest) =
      processLines ⟨o', some (metaInsert (cmdKvPair c).1 (cmdKvPair c).2 m),
        cc, cso, cse, f1, f2, f3, f4, .inBlock .meta⟩ rest := by
  cases c with
  | line l =>
    simp only [cmdMetaKv, cmdKvPair]
    rw [processLines_cons_ok (stepLine_kv
      (show ("command_line".data).head? = some 'c' from rfl)
      (by decide) (by decide) (by decide) (by decide))]
    rfl
  | script p content =>
    simp only [cmdMetaKv, cmdKvPair]
    rw [processLines_cons_ok (stepLine_kv
      (show ("script_path".data).head? = some 's' from rfl)
      (by decide) (by decide) (by decide) (by decide))]
    rfl

/-- Scanning the lines of one encoded record from the state just after its
    META marker yields exactly the state just after finishing the record,
    with `expectedRec` parsed. -/
theorem process_record_core {a : RecArgs} (h : WfArgs a)
    (o : List RommyRecord) (rest : List (List Char)) :
    processLines ⟨o, some [], [], [], [], false, false, false, false,
        .inBlock .meta⟩ (recordTail a ++ rest) =
      processLines (afterPS o (expectedRec a)) rest := by
  obtain ⟨h1, h2, h3, h4, h5, h6, h7, h8, h9, h10, h11, h12⟩ := h
  simp only [recordTail, metaKvLines, List.append_assoc, List.cons_append,
    List.nil_append]
  rw [processLines_cons_ok (stepLine_kv
        (show ("rommy_version".data).head? = some 'r' from rfl)
        (by decide) (by decide) (by decide) (by decide)),
      processLines_optKv (show ("label".data).head? = some 'l' from rfl)
        (by decide) (by decide) (by decide) (by decide),
      processLines_cons_ok (stepLine_kv
        (show ("cwd".data).head? = some 'c' from rfl)
        (by decide) (by decide) (by decide) (by decide)),
      processLines_optKv (show ("user".data).head? = some 'u' from rfl)
        (by decide) (by decide) (by decide) (by decide),
      processLines_optKv (show ("host".data).head? = some 'h' from rfl)
        (by decide) (by decide) (by decide) (by decide),
      processLines_cmdMeta h6,
      processLines_cons_ok (stepLine_kv
        (show ("start_ts".data).head? = some 's' from rfl)
        (by decide) (by decide) (by decide) (by decide)),
      processLines_cons_ok (stepLine_kv
        (show ("end_ts".data).head? = some 'e' from rfl)
        (by decide) (by decide) (by decide) (by decide)),
      processLines_cons_ok (stepLine_kv
        (show ("duration_ms".data).head? = some 'd' from rfl)
        (by decide) (by decide) (by decide) (by decide)),
      processLines_cons_ok (stepLine_kv
        (show ("output_path".data).head? = some 'o' from rfl)
        (by decide) (by decide) (by decide) (by decide)),
      processLines_cons_ok (stepLine_kv
        (show ("status".data).head? = some 's' from rfl)
        (by decide) (by decide) (by decide) (by decide)),
      processLines_cons_ok (stepLine_kv
        (show ("exit_code".data).head? = some 'e' from rfl)
        (by decide) (by decide) (by decide) (by decide)),
      processLines_cons_ok stepLine_end]
  simp only [setSeen]
  rw [processLines_cons_ok (stepLine_marker_cont from_marker_command
        (by decide))]
  cases hcmd : a.command with
  | line l =>
    rw [hcmd] at h6
    simp only [cmdBodyLines, List.singleton_append]
    rw [processLines_cons_ok (stepLine_content (by decide) rfl
          (plainLine_cons (by decide) (by decide)))]
    simp only [setBuf, getBuf]
    rw [processLines_cons_ok stepLine_end]
    simp only [setSeen]
    rw [processLines_cons_ok (stepLine_marker_cont from_marker_stdout
          (by decide)),
        processLines_content (by decide) _ _ rfl h11.2.2]
    simp only [setBuf, getBuf]
    rw [processLines_cons_ok stepLine_end]
    simp only [setSeen]
    rw [processLines_cons_ok (stepLine_marker_cont from_marker_stderr
          (by decide)),
        processLines_content (by decide) _ _ rfl h12.2.2]
    simp only [setBuf, getBuf]
    rw [processLines_cons_ok stepLine_end]
    simp only [setSeen]
    rw [foldl_accLine_normTail h11.2.1, foldl_accLine_normTail h12.2.1]
    congr 1
    simp [afterPS, expectedRec, expectedMeta, expectedCmd, cmdKvPair, hcmd,
      storedVal, accLine]
  | script p content =>
    rw [hcmd] at h6
    simp only [cmdBodyLines]
    rw [processLines_content (by decide) _ _ rfl h6.2.2.2.2]
    simp only [setBuf, getBuf]
    rw [processLines_cons_ok stepLine_end]
    simp only [setSeen]
    rw [processLines_cons_ok (stepLine_marker_cont from_marker_stdout
          (by decide)),
        processLines_content (by decide) _ _ rfl h11.2.2]
    simp only [setBuf, getBuf]
    rw [processLines_cons_ok stepLine_end]
    simp only [setSeen]
    rw [processLines_cons_ok (stepLine_marker_cont from_marker_stderr
          (by decide)),
        processLines_content (by decide) _ _ rfl h12.2.2]
    simp only [setBuf, getBuf]
    rw [processLines_cons_ok stepLine_end]
    simp only [setSeen]
    rw [foldl_accLine_lines h6.2.2.2.1,
        foldl_accLine_normTail h11.2.1, foldl_accLine_normTail h12.2.1]
    congr 1
    simp [afterPS, expectedRec, expectedMeta, expectedCmd, cmdKvPair, hcmd,
      storedVal]

theorem process_record_fresh {a : RecArgs} (h : WfArgs a)
    {o : List RommyRecord} {cc cso cse : List Char} {f1 f2 f3 f4 : Bool}
    (rest : List (List Char)) :
    processLines ⟨o, none, cc, cso, cse, f1, f2, f3, f4, .idle⟩
        (recordLines a ++ rest) =
      processLines (afterPS o (expectedRec a)) rest := by
  simp only [recordLines, List.cons_append]
  rw [processLines_cons_ok (stepLine_meta_fresh from_marker_meta)]
  exact process_record_core h o rest

theorem process_record_after {a : RecArgs} (h : WfArgs a)
    (o : List RommyRecord) (r : RommyRecord) (rest : List (List Char)) :
    processLines (afterPS o r) (recordLines a ++ rest) =
      processLines (afterPS (o ++ [r]) (expectedRec a)) rest := by
  simp only [recordLines, List.cons_append]
  rw [processLines_cons_ok (stepLine_meta_finish from_marker_meta)]
  exact process_record_core h _ rest

theorem finalize_afterPS (o : List RommyRecord) (r : RommyRecord) :
    finalize (afterPS o r) = .ok (o ++ [r]) := rfl

theorem runFrom_nil_after (o : List RommyRecord) (r : RommyRecord) :
    runFrom (afterPS o r) [] = .ok (o ++ [r]) := rfl

theorem runFrom_append_record {a : RecArgs} (h : WfArgs a)
    (o : List RommyRecord) (r : RommyRecord) (rest : List (List Char)) :
    runFrom (afterPS o r) (recordLines a ++ rest) =
      runFrom (afterPS (o ++ [r]) (expectedRec a)) rest := by
  unfold runFrom
  rw [process_record_after h]

theorem runFrom_chain (as : List RecArgs) (h : ∀ a ∈ as, WfArgs a) :
    ∀ (o : List RommyRecord) (r : RommyRecord),
    runFrom (afterPS o r) ((as.map recordLines).flatten) =
      .ok (o ++ [r] ++ as.map expectedRec) := by
  induction as with
  | nil => intro o r; simpa using runFrom_nil_after o r
  | cons a as ih =>
    intro o r
    simp only [List.map_cons, List.flatten_cons]
    rw [runFrom_append_record (h a (List.mem_cons_self a as)),
        ih (fun x hx => h x (List.mem_cons_of_mem a hx))]
    simp

theorem getLast?_append_some {l₂ : List Char}
    (h : l₂.getLast? = some '\n') (l₁ : List Char) :
    (l₁ ++ l₂).getLast? = some '\n' := by
  have h2 : l₂ ≠ [] := by intro he; rw [he] at h; exact Option.noConfusion h
  induction l₁ with
  | nil => exact h
  | cons c l₁ ih =>
    rw [List.cons_append]
    have hne : l₁ ++ l₂ ≠ [] := fun he => h2 (List.append_eq_nil.1 he).2
    obtain ⟨d, u, hdu⟩ := List.exists_cons_of_ne_nil hne
    rw [hdu, List.getLast?_cons_cons, ← hdu, ih]

theorem write_record_getLast (a : RecArgs) :
    (write_record a).getLast? = some '\n' := by
  simp only [write_record]
  exact getLast?_append_some (wline_getLast? endMarker) _

theorem lines_flatten_records (as : List RecArgs)
    (h : ∀ a ∈ as, WfArgs a) :
    lines ((as.map write_record).flatten) = (as.map recordLines).flatten := by
  induction as with
  | nil => rfl
  | cons a as ih =>
    simp only [List.map_cons, List.flatten_cons]
    rw [lines_append _ (Or.inr (write_record_getLast a)),
        lines_write_record (h a (List.mem_cons_self a as)),
        ih (fun x hx => h x (List.mem_cons_of_mem a hx))]

/-- Concatenations of well-formed encoded records parse back to exactly
    their expected records, in order. -/
theorem parse_write_records {as : List RecArgs} (hne : as ≠ [])
    (h : ∀ a ∈ as, WfArgs a) :
    parse_str ((as.map write_record).flatten) = .ok (as.map expectedRec) := by
  have hcr : '\r' ∉ ((as.map write_record).flatten : List Char) := by
    intro hm
    rw [List.mem_flatten] at hm
    obtain ⟨l, hl, hc⟩ := hm
    rw [List.mem_map] at hl
    obtain ⟨x, hx, rfl⟩ := hl
    exact cr_write_record (h x hx) hc
  unfold parse_str
  rw [replaceCrLf_eq_self hcr, lines_flatten_records as h]
  obtain ⟨a, as', rfl⟩ := List.exists_cons_of_ne_nil hne
  simp only [List.map_cons, List.flatten_cons]
  show runFrom initPS (recordLines a ++ (as'.map recordLines).flatten) = _
  unfold runFrom initPS
  rw [process_record_fresh (h a (List.mem_cons_self a as'))]
  have := runFrom_chain as'
    (fun x hx => h x (List.mem_cons_of_mem a hx)) [] (expectedRec a)
  unfold runFrom at this
  rw [this]
  simp

/-- One well-formed encoded record parses back to its expected record. -/
theorem parse_one_record {a : RecArgs} (h : WfArgs a) :
    parse_str (write_record a) = .ok [expectedRec a] := by
  have h2 : ([a] : List RecArgs) ≠ [] := by simp
  have h3 : ∀ x ∈ ([a] : List RecArgs), WfArgs x := by
    intro x hx; rw [List.mem_singleton] at hx; rwa [hx]
  have := parse_write_records h2 h3
  simpa using this

/-! ## Supporting lemmas for the claim theorems -/

theorem storedVal_statusStr (e : Int) :
    storedVal (statusStr e) = statusStr e := by
  unfold statusStr
  by_cases h : e = 0 <;> simp [h] <;> decide

theorem metaLookup_expectedMeta_exit (a : RecArgs) :
    metaLookup (expectedRec a).meta "exit_code".data =
      some (intChars a.exitCode) := by
  simp [expectedRec, expectedMeta, metaInsert, metaLookup, storedVal_intChars]

theorem metaLookup_expectedMeta_status (a : RecArgs) :
    metaLookup (expectedRec a).meta "status".data = some (storedVal a.statusS) := by
  simp [expectedRec, expectedMeta, metaInsert, metaLookup]

theorem processLines_cons_error {s : PState} {l : List Char}
    {ls : List (List Char)} {e : String} (h : stepLine s l = .error e) :
    processLines s (l :: ls) = .error e := by
  show (match stepLine s l with
        | .ok s'' => processLines s'' ls
        | .error e' => (.error e' : Except String PState)) = .error e
  rw [h]

theorem write_record_decompose (a : RecArgs) :
    write_record a =
      headerPart a ++ (stdoutSection a.stdoutBytes ++
        stderrSection a.stderrBytes) := by
  simp [write_record, headerPart, stdoutSection, stderrSection,
    List.append_assoc]

theorem normTail_eq_append (b : List Char) :
    normTail b = b ++
      (if b = [] ∨ b.getLast? = some '\n' then [] else ['\n']) := by
  by_cases h : b = [] ∨ b.getLast? = some '\n' <;> simp [normTail, h]

/-! ## C1: round-trip -/

/-- C1 (counterexample): the round-trip fails on arbitrary byte buffers.
    For stdout bytes `"\nx\n"` the encoder emits a well-formed record, but
    the parser collapses the leading blank line, returning stdout `"x"`,
    which differs from the original even after trailing-newline
    normalization (`chomp "\nx\n" = "\nx"`). -/
theorem c1_round_trip_cex :
    parse_str (write_record ⟨"1".data, none, "/c".data, none, none,
        .line "true".data, "S".data, "E".data, 0, "/o".data, statusStr 0, 0,
        "\nx\n".data, []⟩) =
      .ok [⟨[("exit_code".data, "0".data), ("status".data, "ok".data),
             ("output_path".data, "/o".data), ("duration_ms".data, "0".data),
             ("end_ts".data, "E".data), ("start_ts".data, "S".data),
             ("command_line".data, "true".data), ("cwd".data, "/c".data),
             ("rommy_version".data, "1".data)],
            "$ true".data, "x".data, []⟩] ∧
    chomp ("\nx\n".data) ≠ ("x".data : List Char) := by
  constructor
  · decide
  · decide

/-- C1 (amended): for every Run Record whose META fields are single-line,
    whose command is well formed, and whose stdout/stderr buffers contain
    no carriage returns, do not start with a newline, and contain no line
    that trims to a block marker, parsing the encoder's output yields
    exactly one record whose `meta["status"]`, `meta["exit_code"]`,
    command, stdout and stderr match the original, with stdout/stderr
    compared after trailing-newline normalization. -/
theorem c1_round_trip (a : RecArgs) (h : WfArgs a)
    (hst : a.statusS = statusStr a.exitCode) :
    ∃ r : RommyRecord, parse_str (write_record a) = .ok [r] ∧
      metaLookup r.meta "status".data = some (statusStr a.exitCode) ∧
      metaLookup r.meta "exit_code".data = some (intChars a.exitCode) ∧
      r.command = expectedCmd a.command ∧
      r.stdout = chomp a.stdoutBytes ∧
      r.stderr = chomp a.stderrBytes := by
  refine ⟨expectedRec a, parse_one_record h, ?_, metaLookup_expectedMeta_exit a,
    rfl, rfl, rfl⟩
  rw [metaLookup_expectedMeta_status a, hst, storedVal_statusStr]

/-- C1 (witness). -/
theorem c1_round_trip_witness :
    WfArgs ⟨"0.1".data, some "L".data, "/c".data, none, some "h".data,
        .line "true".data, "S".data, "E".data, 7, "/o".data, statusStr 2, 2,
        "hi".data, "e\n".data⟩ ∧
    (∃ r : RommyRecord,
      parse_str (write_record ⟨"0.1".data, some "L".data, "/c".data, none,
          some "h".data, .line "true".data, "S".data, "E".data, 7, "/o".data,
          statusStr 2, 2, "hi".data, "e\n".data⟩) = .ok [r] ∧
      metaLookup r.meta "status".data = some (statusStr 2) ∧
      metaLookup r.meta "exit_code".data = some (intChars 2) ∧
      r.command = expectedCmd (.line "true".data) ∧
      r.stdout = chomp "hi".data ∧
      r.stderr = chomp "e\n".data) :=
  ⟨by decide, c1_round_trip _ (by decide) rfl⟩

/-! ## C7: META emission order -/

/-- C7: the encoder emits the META block's lines in exactly the order
    version, label (if present), cwd, user (if present), host (if
    present), the command-descriptor line, start_ts, end_ts, duration_ms,
    output_path, status, exit_code; and the status string is `"ok"` when
    the exit code is `0` and `"error"` otherwise. -/
theorem c7_meta_order (a : RecArgs) (h : WfArgs a) :
    (∃ rest, lines (write_record a) =
      metaMarker ::
      mkKv "rommy_version".data (' ' :: a.rommyVersion) ::
      (optLines "label".data a.label ++
       mkKv "cwd".data (' ' :: a.cwd) ::
       (optLines "user".data a.user ++
        (optLines "host".data a.host ++
         cmdMetaKv a.command ::
         mkKv "start_ts".data (' ' :: a.startTs) ::
         mkKv "end_ts".data (' ' :: a.endTs) ::
         mkKv "duration_ms".data (' ' :: intChars a.durationMs) ::
         mkKv "output_path".data (' ' :: a.outPath) ::
         mkKv "status".data (' ' :: a.statusS) ::
         mkKv "exit_code".data (' ' :: intChars a.exitCode) ::
         endMarker :: rest)))) ∧
    statusStr 0 = "ok".data ∧
    (∀ e : Int, e ≠ 0 → statusStr e = "error".data) := by
  refine ⟨⟨commandMarker :: (cmdBodyLines a.command ++
      endMarker :: stdoutMarker :: (lines (normTail a.stdoutBytes) ++
      endMarker :: stderrMarker :: (lines (normTail a.stderrBytes) ++
      [endMarker]))), ?_⟩, by decide, fun e he => by simp [statusStr, he]⟩
  rw [lines_write_record h]
  simp [recordLines, recordTail, metaKvLines, List.append_assoc]

/-- C7 (witness). -/
theorem c7_meta_order_witness :
    WfArgs ⟨"0.1".data, some "L".data, "/c".data, none, some "h".data,
        .line "true".data, "S".data, "E".data, 7, "/o".data, statusStr 2, 2,
        "hi".data, "e\n".data⟩ ∧
    ((∃ rest, lines (write_record ⟨"0.1".data, some "L".data, "/c".data,
        none, some "h".data, .line "true".data, "S".data, "E".data, 7,
        "/o".data, statusStr 2, 2, "hi".data, "e\n".data⟩) =
      metaMarker ::
      mkKv "rommy_version".data (' ' :: "0.1".data) ::
      (optLines "label".data (some "L".data) ++
       mkKv "cwd".data (' ' :: "/c".data) ::
       (optLines "user".data none ++
        (optLines "host".data (some "h".data) ++
         cmdMetaKv (.line "true".data) ::
         mkKv "start_ts".data (' ' :: "S".data) ::
         mkKv "end_ts".data (' ' :: "E".data) ::
         mkKv "duration_ms".data (' ' :: intChars 7) ::
         mkKv "output_path".data (' ' :: "/o".data) ::
         mkKv "status".data (' ' :: statusStr 2) ::
         mkKv "exit_code".data (' ' :: intChars 2) ::
         endMarker :: rest)))) ∧
     statusStr 0 = "ok".data ∧
     (∀ e : Int, e ≠ 0 → statusStr e = "error".data)) :=
  ⟨by decide, c7_meta_order _ (by decide)⟩

/-! ## C4: incompleteness detection -/

theorem infix_append_left {x y : List Char} (h : x <:+: y)
    (z : List Char) : x <:+: z ++ y := by
  obtain ⟨s, t, rfl⟩ := h
  exact ⟨z ++ s, t, by simp⟩

theorem mem_joinComma_sub :
    ∀ (l : List String) (x : String), x ∈ l →
      x.data <:+: (joinComma l).data := by
  intro l
  induction l with
  | nil => intro x hx; simp at hx
  | cons a rest ih =>
    intro x hx
    cases rest with
    | nil =>
      rw [List.mem_singleton] at hx
      subst hx
      exact ⟨[], [], by simp [joinComma]⟩
    | cons b rest' =>
      rcases List.mem_cons.1 hx with rfl | hx'
      · exact ⟨[], (", " ++ joinComma (b :: rest')).data, by
          simp [joinComma, String.data_append]⟩
      · have h1 := ih x hx'
        have h2 := infix_append_left h1 ((a ++ ", ").data)
        have h3 : (joinComma (a :: b :: rest')).data =
            (a ++ ", ").data ++ (joinComma (b :: rest')).data := by
          simp [joinComma, String.data_append]
        rw [h3]
        exact h2

theorem finish_record_missing {o : List RommyRecord}
    {m : List (List Char × List Char)} {cc cso cse : List Char}
    {f1 f2 f3 f4 : Bool} {md : PMode}
    (hmiss : missingList f1 f2 f3 f4 ≠ []) :
    finish_record ⟨o, some m, cc, cso, cse, f1, f2, f3, f4, md⟩ =
      .error ("incomplete record: missing block(s): " ++
              joinComma (missingList f1 f2 f3 f4)) := by
  simp only [finish_record]
  rw [if_neg hmiss]

/-- C4: when `finish_record` finalizes a record for which not all four
    block kinds were closed with an end marker, it fails with an error
    that names every missing block kind; in particular, input containing
    META, COMMAND and STDOUT blocks but no STDERR block fails with a
    message naming STDERR as missing. -/
theorem c4_incompleteness :
    (∀ (o : List RommyRecord) (m : List (List Char × List Char))
       (cc cso cse : List Char) (f1 f2 f3 f4 : Bool) (md : PMode),
       missingList f1 f2 f3 f4 ≠ [] →
       finish_record ⟨o, some m, cc, cso, cse, f1, f2, f3, f4, md⟩ =
         .error ("incomplete record: missing block(s): " ++
                 joinComma (missingList f1 f2 f3 f4)) ∧
       (f1 = false → ("META".data : List Char) <:+:
         ("incomplete record: missing block(s): " ++
          joinComma (missingList f1 f2 f3 f4)).data) ∧
       (f2 = false → ("COMMAND".data : List Char) <:+:
         ("incomplete record: missing block(s): " ++
          joinComma (missingList f1 f2 f3 f4)).data) ∧
       (f3 = false → ("STDOUT".data : List Char) <:+:
         ("incomplete record: missing block(s): " ++
          joinComma (missingList f1 f2 f3 f4)).data) ∧
       (f4 = false → ("STDERR".data : List Char) <:+:
         ("incomplete record: missing block(s): " ++
          joinComma (missingList f1 f2 f3 f4)).data)) ∧
    parse_str ("<<<META>>>\nrommy_version: 1\n<<<END>>>\n<<<COMMAND>>>\n$ true\n<<<END>>>\n<<<STDOUT>>>\nhi\n<<<END>>>\n".data) =
      .error "incomplete record: missing block(s): STDERR" := by
  constructor
  · intro o m cc cso cse f1 f2 f3 f4 md hmiss
    have hmem : ∀ (name : String), name ∈ missingList f1 f2 f3 f4 →
        name.data <:+:
          ("incomplete record: missing block(s): " ++
           joinComma (missingList f1 f2 f3 f4)).data := by
      intro name hname
      rw [String.data_append]
      exact infix_append_left (mem_joinComma_sub _ name hname) _
    refine ⟨finish_record_missing hmiss, ?_, ?_, ?_, ?_⟩
    · intro h1
      exact hmem "META" (by simp [missingList, h1])
    · intro h2
      exact hmem "COMMAND" (by simp [missingList, h2])
    · intro h3
      exact hmem "STDOUT" (by simp [missingList, h3])
    · intro h4
      exact hmem "STDERR" (by simp [missingList, h4])
  · decide

/-- C4 (witness). -/
theorem c4_incompleteness_witness :
    missingList true true true false ≠ [] ∧
    (finish_record ⟨[], some [], [], [], [], true, true, true, false,
        .idle⟩ =
      .error ("incomplete record: missing block(s): " ++
              joinComma (missingList true true true false)) ∧
     (true = false → ("META".data : List Char) <:+:
       ("incomplete record: missing block(s): " ++
        joinComma (missingList true true true false)).data) ∧
     (true = false → ("COMMAND".data : List Char) <:+:
       ("incomplete record: missing block(s): " ++
        joinComma (missingList true true true false)).data) ∧
     (true = false → ("STDOUT".data : List Char) <:+:
       ("incomplete record: missing block(s): " ++
        joinComma (missingList true true true false)).data) ∧
     (false = false → ("STDERR".data : List Char) <:+:
       ("incomplete record: missing block(s): " ++
        joinComma (missingList true true true false)).data)) :=
  ⟨by decide,
   c4_incompleteness.1 [] [] [] [] [] true true true false .idle (by decide)⟩

/-! ## C5: nested-marker rejection -/

/-- C5: while the parser is inside an open block of any kind, any
    begin-marker line (of any kind, including the same one) is a hard
    parse error reporting an unexpected start of block, and the whole
    parse fails with that error; concretely, a STDOUT begin marker inside
    an unclosed META block aborts parsing. -/
theorem c5_nested_marker :
    (∀ (s : PState) (b : Block) (line : List Char) (b2 : Block)
       (rest : List (List Char)), s.mode = .inBlock b →
       from_marker line = some b2 →
       processLines s (line :: rest) =
         .error ("unexpected start of block " ++ blockName b2 ++
                 " before closing previous block")) ∧
    parse_str "<<<META>>>\n<<<STDOUT>>>\n".data =
      .error "unexpected start of block Stdout before closing previous block" := by
  constructor
  · intro s b line b2 rest hmode hm
    have hstep : stepLine s line =
        .error ("unexpected start of block " ++ blockName b2 ++
                " before closing previous block") := by
      unfold stepLine
      rw [hm, hmode]
    exact processLines_cons_error hstep
  · decide

/-- C5 (witness). -/
theorem c5_nested_marker_witness :
    (⟨[], some [], [], [], [], false, false, false, false,
        .inBlock .meta⟩ : PState).mode = .inBlock .meta ∧
    from_marker stdoutMarker = some .stdout ∧
    processLines ⟨[], some [], [], [], [], false, false, false, false,
        .inBlock .meta⟩ (stdoutMarker :: []) =
      .error ("unexpected start of block " ++ blockName .stdout ++
              " before closing previous block") :=
  ⟨rfl, by decide,
   c5_nested_marker.1 _ .meta stdoutMarker .stdout [] rfl (by decide)⟩

/-! ## C6: trailing-newline normalization -/

/-- C6: the encoder emits the captured stdout/stderr bytes verbatim,
    followed by a newline exactly when the bytes are non-empty and do not
    already end in one, so the end marker starts its own line.  In
    particular stdout bytes `"x"` produce `<<<STDOUT>>>\nx\n<<<END>>>\n`
    verbatim, and empty captured bytes get no inserted newline. -/
theorem c6_trailing_newline (a : RecArgs) :
    (∃ p q, write_record a =
      p ++ ("<<<STDOUT>>>\n".data ++ a.stdoutBytes ++
            (if a.stdoutBytes = [] ∨ a.stdoutBytes.getLast? = some '\n'
             then [] else ['\n']) ++ "<<<END>>>\n".data) ++ q) ∧
    (∃ p q, write_record a =
      p ++ ("<<<STDERR>>>\n".data ++ a.stderrBytes ++
            (if a.stderrBytes = [] ∨ a.stderrBytes.getLast? = some '\n'
             then [] else ['\n']) ++ "<<<END>>>\n".data) ++ q) ∧
    (∃ p q, write_record { a with stdoutBytes := "x".data } =
      p ++ "<<<STDOUT>>>\nx\n<<<END>>>\n".data ++ q) ∧
    (∃ p q, write_record { a with stdoutBytes := [] } =
      p ++ "<<<STDOUT>>>\n<<<END>>>\n".data ++ q) := by
  have hsec : ∀ b : List Char, stdoutSection b =
      "<<<STDOUT>>>\n".data ++ b ++
      (if b = [] ∨ b.getLast? = some '\n' then [] else ['\n']) ++
      "<<<END>>>\n".data := by
    intro b
    rw [stdoutSection, normTail_eq_append]
    simp [wline, List.append_assoc]
    rfl
  have hsec' : ∀ b : List Char, stderrSection b =
      "<<<STDERR>>>\n".data ++ b ++
      (if b = [] ∨ b.getLast? = some '\n' then [] else ['\n']) ++
      "<<<END>>>\n".data := by
    intro b
    rw [stderrSection, normTail_eq_append]
    simp [wline, List.append_assoc]
    rfl
  refine ⟨⟨headerPart a, stderrSection a.stderrBytes, ?_⟩,
          ⟨headerPart a ++ stdoutSection a.stdoutBytes, [], ?_⟩,
          ⟨headerPart { a with stdoutBytes := "x".data },
           stderrSection a.stderrBytes, ?_⟩,
          ⟨headerPart { a with stdoutBytes := [] },
           stderrSection a.stderrBytes, ?_⟩⟩
  · rw [write_record_decompose a, ← hsec]
    simp [List.append_assoc]
  · rw [write_record_decompose a, ← hsec']
    simp [List.append_assoc]
  · rw [write_record_decompose, ← (show stdoutSection ("x".data) =
        "<<<STDOUT>>>\nx\n<<<END>>>\n".data by decide)]
    simp [List.append_assoc]
  · rw [write_record_decompose, ← (show stdoutSection ([] : List Char) =
        "<<<STDOUT>>>\n<<<END>>>\n".data by decide)]
    simp [List.append_assoc]

/-! ## C10: repeated blocks of one kind -/

/-- C10: in the idle state with a record open, a further STDOUT block
    (marker, content lines, end marker) is accepted without error and its
    body is newline-joined onto whatever the record's stdout buffer
    already holds; concretely, a record with two closed STDOUT blocks
    `"a"` and `"b"` parses to a single record with stdout `"a\nb"`. -/
theorem c10_repeated_blocks :
    (∀ (o : List RommyRecord) (m : List (List Char × List Char))
       (cc cso cse : List Char) (f1 f2 f3 f4 : Bool)
       (ls : List (List Char)) (rest : List (List Char)),
       (∀ l ∈ ls, plainLine l) →
       processLines ⟨o, some m, cc, cso, cse, f1, f2, f3, f4, .idle⟩
           (stdoutMarker :: (ls ++ endMarker :: rest)) =
         processLines ⟨o, some m, cc, List.foldl accLine cso ls, cse,
             f1, f2, true, f4, .idle⟩ rest) ∧
    parse_str ("<<<META>>>\nk: v\n<<<END>>>\n<<<COMMAND>>>\n$ x\n<<<END>>>\n<<<STDOUT>>>\na\n<<<END>>>\n<<<STDOUT>>>\nb\n<<<END>>>\n<<<STDERR>>>\n<<<END>>>\n".data) =
      .ok [⟨[("k".data, "v".data)], "$ x".data, "a\nb".data, []⟩] := by
  constructor
  · intro o m cc cso cse f1 f2 f3 f4 ls rest hpl
    rw [processLines_cons_ok (stepLine_marker_cont from_marker_stdout
          (by decide)),
        processLines_content (by decide) _ _ rfl hpl]
    simp only [setBuf, getBuf]
    rw [processLines_cons_ok stepLine_end]
    rfl
  · decide

/-- C10 (witness). -/
theorem c10_repeated_blocks_witness :
    (∀ l ∈ (["b".data] : List (List Char)), plainLine l) ∧
    processLines ⟨[], some [], [], "a".data, [], true, true, true, false,
        .idle⟩ (stdoutMarker :: (["b".data] ++ endMarker :: [])) =
      processLines ⟨[], some [], [], List.foldl accLine "a".data ["b".data],
          [], true, true, true, false, .idle⟩ [] :=
  ⟨by decide,
   c10_repeated_blocks.1 [] [] [] "a".data [] true true true false
     ["b".data] [] (by decide)⟩

/-! ## C2: atomicity of the write path under failure -/

/-- C2: if any step of the write path fails after the temporary path is
    derived and before the rename completes (create temp, copy prior
    content, write record, sync, rename), the temporary file is deleted,
    the error propagates, and the destination is byte-identical to its
    state before the attempt. -/
theorem c2_atomic_failure (e : FailSpec) (append : Bool) (rec : List Char)
    (s s' : FsSt) (m : String) (ht : s.tmp = none)
    (h : writePath e append rec s = (some m, s')) :
    s'.dest = s.dest ∧ s'.tmp = none := by
  rcases s with ⟨d, t⟩
  cases ht
  rcases e with ⟨fc, fo, fcp, fw, fs, fr⟩
  cases fc <;> cases fo <;> cases fcp <;> cases fw <;> cases fs <;>
    cases fr <;> cases append <;> rcases d with _ | c <;>
    simp_all [writePath, writeAttempt, writeAttempt.writeAttemptRest] <;>
    (try (obtain ⟨_, rfl⟩ := h)) <;> simp

/-- C2 (witness): an injected sync failure against an existing
    destination propagates the error, removes the temp file, and leaves
    the destination untouched. -/
theorem c2_atomic_failure_witness :
    (⟨some "OLD".data, none⟩ : FsSt).tmp = none ∧
    writePath ⟨false, false, false, false, true, false⟩ true "R".data
        ⟨some "OLD".data, none⟩ =
      (some "Cannot sync", ⟨some "OLD".data, none⟩) ∧
    ((⟨some "OLD".data, none⟩ : FsSt).dest =
       (⟨some "OLD".data, none⟩ : FsSt).dest ∧
     (⟨some "OLD".data, none⟩ : FsSt).tmp = none) :=
  ⟨rfl, by decide,
   c2_atomic_failure ⟨false, false, false, false, true, false⟩ true
     "R".data ⟨some "OLD".data, none⟩ ⟨some "OLD".data, none⟩
     "Cannot sync" rfl (by decide)⟩

/-! ## C8: append to a missing destination -/

/-- C8: when append mode is requested and the destination does not exist,
    the write degrades to create mode and behaves identically to creating
    the file fresh (absent an injected open error); with no failures the
    destination afterwards contains exactly the one new record; and an
    open error other than not-found is propagated as a failure. -/
theorem c8_append_missing (e : FailSpec) (rec : List Char) (s : FsSt)
    (hd : s.dest = none) (ht : s.tmp = none) :
    (e.failOpenOther = false →
      writePath e true rec s = writePath e false rec s) ∧
    writePath noFail true rec s = (none, ⟨some rec, none⟩) ∧
    (e.failOpenOther = true → e.failCreate = false →
      writePath e true rec s =
        (some "Cannot open destination", ⟨none, none⟩)) := by
  rcases s with ⟨d, t⟩
  cases ht
  cases hd
  refine ⟨?_, ?_, ?_⟩
  · intro ho
    rcases e with ⟨fc, fo, fcp, fw, fs, fr⟩
    cases fo
    · rfl
    · exact absurd ho (by simp)
  · simp [writePath, writeAttempt, writeAttempt.writeAttemptRest, noFail]
  · intro ho hc
    rcases e with ⟨fc, fo, fcp, fw, fs, fr⟩
    cases fo
    · exact absurd ho (by simp)
    · cases fc
      · rfl
      · exact absurd hc (by simp)

/-- C8 (witness). -/
theorem c8_append_missing_witness :
    (⟨none, none⟩ : FsSt).dest = none ∧ (⟨none, none⟩ : FsSt).tmp = none ∧
    ((noFail.failOpenOther = false →
       writePath noFail true "R".data ⟨none, none⟩ =
         writePath noFail false "R".data ⟨none, none⟩) ∧
     writePath noFail true "R".data ⟨none, none⟩ =
       (none, ⟨some "R".data, none⟩) ∧
     (noFail.failOpenOther = true → noFail.failCreate = false →
       writePath noFail true "R".data ⟨none, none⟩ =
         (some "Cannot open destination", ⟨none, none⟩))) :=
  ⟨rfl, rfl, c8_append_missing noFail "R".data ⟨none, none⟩ rfl rfl⟩

/-! ## C9: growth invariant -/

/-- C9 (counterexample): a successful write against an existing
    destination need not grow the file.  Without `--append` (append mode
    off, the default), the write path copies nothing, so the prior
    content `"A"` is replaced by just the new record `"R"` instead of
    being extended to `"AR"`. -/
theorem c9_growth_cex :
    writePath noFail false "R".data ⟨some "A".data, none⟩ =
      (none, ⟨some "R".data, none⟩) ∧
    some ("R".data) ≠ some ("A".data ++ "R".data) := by
  constructor
  · decide
  · decide

/-- C9 (amended): for every successful append-mode write against an
    existing destination, the destination is only grown: afterwards it
    holds its complete prior content followed by the newly encoded
    record, and the temporary file is gone. -/
theorem c9_append_grows (e : FailSpec) (rec cur : List Char) (s s' : FsSt)
    (hd : s.dest = some cur) (ht : s.tmp = none)
    (h : writePath e true rec s = (none, s')) :
    s'.dest = some (cur ++ rec) ∧ s'.tmp = none := by
  rcases s with ⟨d, t⟩
  cases ht
  cases hd
  rcases e with ⟨fc, fo, fcp, fw, fs, fr⟩
  cases fc <;> cases fo <;> cases fcp <;> cases fw <;> cases fs <;>
    cases fr <;>
    simp_all [writePath, writeAttempt, writeAttempt.writeAttemptRest] <;>
    (try (obtain ⟨_, rfl⟩ := h)) <;> simp

/-- C9 (witness). -/
theorem c9_append_grows_witness :
    (⟨some "A".data, none⟩ : FsSt).dest = some "A".data ∧
    writePath noFail true "R".data ⟨some "A".data, none⟩ =
      (none, ⟨some ("A".data ++ "R".data), none⟩) ∧
    ((⟨some ("A".data ++ "R".data), none⟩ : FsSt).dest =
       some ("A".data ++ "R".data) ∧
     (⟨some ("A".data ++ "R".data), none⟩ : FsSt).tmp = none) :=
  ⟨rfl, by decide,
   c9_append_grows noFail "R".data "A".data ⟨some "A".data, none⟩
     ⟨some ("A".data ++ "R".data), none⟩ rfl rfl (by decide)⟩

/-! ## C3: parallel-append safety -/

theorem ordDest_getD (bs : List (List Char)) (ord : List Nat) :
    (ordDest bs ord).getD [] = (ord.map (fun j => bs.getD j [])).flatten := by
  unfold ordDest
  by_cases h : ord = [] <;> simp [h]

theorem winv_init (bs : List (List Char)) :
    WInv bs [] (initSys bs.length) := by
  refine ⟨by simp [initSys], List.nodup_nil, by simp, ?_, by simp [initSys, ordDest], ?_, ?_⟩
  · intro i w hw
    have : w = ⟨0, none⟩ := by
      simp only [initSys, List.get?_eq_getElem?, List.getElem?_replicate] at hw
      split at hw
      · exact (Option.some.inj hw).symm
      · exact Option.noConfusion hw
    subst this
    simp
  · show ∀ w ∈ (initSys bs.length).ws, w.pc = 0 ∨ w.pc = 6
    intro w hw
    simp only [initSys] at hw
    rw [List.eq_of_mem_replicate hw]
    exact Or.inl rfl
  · intro i w hw
    have : w = ⟨0, none⟩ := by
      simp only [initSys, List.get?_eq_getElem?, List.getElem?_replicate] at hw
      split at hw
      · exact (Option.some.inj hw).symm
      · exact Option.noConfusion hw
    subst this
    simp

theorem winv_step {bs : List (List Char)} {ord : List Nat} {s : SysSt}
    {i : Nat} {s' : SysSt} (hI : WInv bs ord s)
    (hs : wstep bs s i = some s') : ∃ ord', WInv bs ord' s' := by
  obtain ⟨hlen, hnd, hordlt, hpcord, hdest, hlock, htmp⟩ := hI
  unfold wstep at hs
  cases hw : s.ws.get? i with
  | none => rw [hw] at hs; exact Option.noConfusion hs
  | some w =>
    rw [hw] at hs
    have hi_lt : i < s.ws.length := by
      rcases List.get?_eq_some.1 hw with ⟨h, _⟩; exact h
    have hibs : i < bs.length := hlen ▸ hi_lt
    obtain ⟨pc, wt⟩ := w
    have hb : pc ≤ 6 := (htmp i ⟨pc, wt⟩ hw).1
    have hnotord : ¬ 5 ≤ pc → i ∉ ord := by
      intro h5 hmem
      exact h5 ((hpcord i ⟨pc, wt⟩ hw).2 hmem)
    -- when 1 ≤ pc ≤ 5, this writer holds the lock
    have hholds : 1 ≤ pc → pc ≤ 5 → s.lock = some i ∧
        (∀ j wj, j ≠ i → s.ws.get? j = some wj →
          wj.pc = 0 ∨ wj.pc = 6) := by
      intro h1 h5
      cases hl : s.lock with
      | none =>
        rw [hl] at hlock
        have := hlock ⟨pc, wt⟩ (List.get?_mem hw)
        simp at this
        omega
      | some h' =>
        rw [hl] at hlock
        obtain ⟨w'', hw'', hp1, hp5, hothers⟩ := hlock
        by_cases hih : i = h'
        · subst hih
          exact ⟨rfl, fun j wj hj hwj => hothers j wj hj hwj⟩
        · have := hothers i ⟨pc, wt⟩ hih hw
          simp at this
          omega
    interval_cases pc
    · -- pc 0: acquire
      simp only at hs
      cases hl : s.lock with
      | some h' => rw [hl] at hs; simp at hs
      | none =>
        rw [hl] at hs
        simp only [if_pos rfl] at hs
        obtain rfl := Option.some.inj hs
        rw [hl] at hlock
        have hwt : wt = none := (htmp i ⟨0, wt⟩ hw).2.1 (Or.inl rfl)
        subst hwt
        refine ⟨ord, by simp [hlen], hnd, hordlt, ?_, hdest, ?_, ?_⟩
        · intro j wj hwj
          by_cases hj : j = i
          · subst hj
            rw [List.get?_set_eq_of_lt _ hi_lt] at hwj
            obtain rfl := Option.some.inj hwj
            simp only
            constructor
            · omega
            · intro hmem
              exact absurd hmem (hnotord (by omega))
          · rw [List.get?_set_ne _ _ (fun he => hj he.symm)] at hwj
            exact hpcord j wj hwj
        · show ∃ w', _
          refine ⟨⟨1, none⟩, List.get?_set_eq_of_lt _ hi_lt, by simp,
            by simp, ?_⟩
          intro j wj hj hwj
          rw [List.get?_set_ne _ _ (fun he => hj he.symm)] at hwj
          exact hlock wj (List.get?_mem hwj)
        · intro j wj hwj
          by_cases hj : j = i
          · subst hj
            rw [List.get?_set_eq_of_lt _ hi_lt] at hwj
            obtain rfl := Option.some.inj hwj
            simp
          · rw [List.get?_set_ne _ _ (fun he => hj he.symm)] at hwj
            exact htmp j wj hwj
    · -- pc 1: create temp
      simp only at hs
      obtain rfl := Option.some.inj hs
      obtain ⟨hli, hoth⟩ := hholds (by omega) (by omega)
      refine ⟨ord, by simp [hlen], hnd, hordlt, ?_, hdest, ?_, ?_⟩
      · intro j wj hwj
        by_cases hj : j = i
        · subst hj
          rw [List.get?_set_eq_of_lt _ hi_lt] at hwj
          obtain rfl := Option.some.inj hwj
          simp only
          exact ⟨fun h => absurd h (by simp),
            fun hmem => absurd hmem (hnotord (by omega))⟩
        · rw [List.get?_set_ne _ _ (fun he => hj he.symm)] at hwj
          exact hpcord j wj hwj
      · rw [hli]
        show ∃ w', _
        refine ⟨⟨2, some []⟩, List.get?_set_eq_of_lt _ hi_lt, by simp,
          by simp, ?_⟩
        intro j wj hj hwj
        rw [List.get?_set_ne _ _ (fun he => hj he.symm)] at hwj
        exact hoth j wj hj hwj
      · intro j wj hwj
        by_cases hj : j = i
        · subst hj
          rw [List.get?_set_eq_of_lt _ hi_lt] at hwj
          obtain rfl := Option.some.inj hwj
          simp
        · rw [List.get?_set_ne _ _ (fun he => hj he.symm)] at hwj
          exact htmp j wj hwj
    · -- pc 2: copy destination into temp
      simp only at hs
      obtain rfl := Option.some.inj hs
      obtain ⟨hli, hoth⟩ := hholds (by omega) (by omega)
      refine ⟨ord, by simp [hlen], hnd, hordlt, ?_, hdest, ?_, ?_⟩
      · intro j wj hwj
        by_cases hj : j = i
        · subst hj
          rw [List.get?_set_eq_of_lt _ hi_lt] at hwj
          obtain rfl := Option.some.inj hwj
          simp only
          exact ⟨fun h => absurd h (by simp),
            fun hmem => absurd hmem (hnotord (by omega))⟩
        · rw [List.get?_set_ne _ _ (fun he => hj he.symm)] at hwj
          exact hpcord j wj hwj
      · rw [hli]
        show ∃ w', _
        refine ⟨⟨3, some (s.dest.getD [])⟩, List.get?_set_eq_of_lt _ hi_lt,
          by simp, by simp, ?_⟩
        intro j wj hj hwj
        rw [List.get?_set_ne _ _ (fun he => hj he.symm)] at hwj
        exact hoth j wj hj hwj
      · intro j wj hwj
        by_cases hj : j = i
        · subst hj
          rw [List.get?_set_eq_of_lt _ hi_lt] at hwj
          obtain rfl := Option.some.inj hwj
          simp
        · rw [List.get?_set_ne _ _ (fun he => hj he.symm)] at hwj
          exact htmp j wj hwj
    · -- pc 3: write the record into the temp
      simp only at hs
      obtain rfl := Option.some.inj hs
      obtain ⟨hli, hoth⟩ := hholds (by omega) (by omega)
      have hwt : wt = some (s.dest.getD []) :=
        (htmp i ⟨3, wt⟩ hw).2.2.2.1 rfl
      refine ⟨ord, by simp [hlen], hnd, hordlt, ?_, hdest, ?_, ?_⟩
      · intro j wj hwj
        by_cases hj : j = i
        · subst hj
          rw [List.get?_set_eq_of_lt _ hi_lt] at hwj
          obtain rfl := Option.some.inj hwj
          simp only
          exact ⟨fun h => absurd h (by simp),
            fun hmem => absurd hmem (hnotord (by omega))⟩
        · rw [List.get?_set_ne _ _ (fun he => hj he.symm)] at hwj
          exact hpcord j wj hwj
      · rw [hli]
        show ∃ w', _
        refine ⟨⟨4, some (wt.getD [] ++ bs.getD i [])⟩,
          List.get?_set_eq_of_lt _ hi_lt, by simp, by simp, ?_⟩
        intro j wj hj hwj
        rw [List.get?_set_ne _ _ (fun he => hj he.symm)] at hwj
        exact hoth j wj hj hwj
      · intro j wj hwj
        by_cases hj : j = i
        · subst hj
          rw [List.get?_set_eq_of_lt _ hi_lt] at hwj
          obtain rfl := Option.some.inj hwj
          refine ⟨by simp, by simp, by simp, by simp, ?_, by simp⟩
          intro
          rw [hwt]
          rfl
        · rw [List.get?_set_ne _ _ (fun he => hj he.symm)] at hwj
          exact htmp j wj hwj
    · -- pc 4: rename the temp over the destination
      simp only at hs
      obtain rfl := Option.some.inj hs
      obtain ⟨hli, hoth⟩ := hholds (by omega) (by omega)
      have hwt : wt = some (s.dest.getD [] ++ bs.getD i []) :=
        (htmp i ⟨4, wt⟩ hw).2.2.2.2.1 rfl
      have hmemi : i ∉ ord := hnotord (by omega)
      refine ⟨ord ++ [i], by simp [hlen], ?_, ?_, ?_, ?_, ?_, ?_⟩
      · simp [List.nodup_append, hnd, hmemi]
      · intro j hj
        rcases List.mem_append.1 hj with hj | hj
        · exact hordlt j hj
        · rw [List.mem_singleton] at hj; subst hj; exact hibs
      · intro j wj hwj
        by_cases hj : j = i
        · subst hj
          rw [List.get?_set_eq_of_lt _ hi_lt] at hwj
          obtain rfl := Option.some.inj hwj
          simp
        · rw [List.get?_set_ne _ _ (fun he => hj he.symm)] at hwj
          have := hpcord j wj hwj
          simp only [List.mem_append, List.mem_singleton]
          constructor
          · intro h5; exact Or.inl (this.1 h5)
          · intro hm
            rcases hm with hm | hm
            · exact this.2 hm
            · exact absurd hm hj
      · show some (wt.getD []) = ordDest bs (ord ++ [i])
        rw [hwt]
        have hdc : s.dest.getD [] =
            (ord.map (fun j => bs.getD j [])).flatten := by
          rw [hdest, ordDest_getD]
        rw [Option.getD_some, hdc]
        unfold ordDest
        rw [if_neg (by simp)]
        simp
      · rw [hli]
        show ∃ w', _
        refine ⟨⟨5, none⟩, List.get?_set_eq_of_lt _ hi_lt, by simp,
          by simp, ?_⟩
        intro j wj hj hwj
        rw [List.get?_set_ne _ _ (fun he => hj he.symm)] at hwj
        exact hoth j wj hj hwj
      · intro j wj hwj
        by_cases hj : j = i
        · subst hj
          rw [List.get?_set_eq_of_lt _ hi_lt] at hwj
          obtain rfl := Option.some.inj hwj
          simp
        · rw [List.get?_set_ne _ _ (fun he => hj he.symm)] at hwj
          have hjo := hoth j wj (fun he => hj he) hwj
          have := htmp j wj hwj
          refine ⟨this.1, this.2.1, ?_, ?_, ?_, this.2.2.2.2.2⟩
          · intro h2; rcases hjo with h | h <;> omega
          · intro h3; rcases hjo with h | h <;> omega
          · intro h4; rcases hjo with h | h <;> omega
    · -- pc 5: release the lock
      simp only at hs
      obtain rfl := Option.some.inj hs
      obtain ⟨hli, hoth⟩ := hholds (by omega) (by omega)
      have hwt : wt = none := (htmp i ⟨5, wt⟩ hw).2.2.2.2.2 (by simp)
      have hmemi : i ∈ ord := (hpcord i ⟨5, wt⟩ hw).1 (by simp)
      refine ⟨ord, by simp [hlen], hnd, hordlt, ?_, hdest, ?_, ?_⟩
      · intro j wj hwj
        by_cases hj : j = i
        · subst hj
          rw [List.get?_set_eq_of_lt _ hi_lt] at hwj
          obtain rfl := Option.some.inj hwj
          simp only
          exact ⟨fun _ => hmemi, fun _ => by simp⟩
        · rw [List.get?_set_ne _ _ (fun he => hj he.symm)] at hwj
          exact hpcord j wj hwj
      · show ∀ w' ∈ _, _
        intro w' hw'
        rcases List.mem_iff_get?.1 hw' with ⟨j, hwj⟩
        by_cases hj : j = i
        · subst hj
          rw [List.get?_set_eq_of_lt _ hi_lt] at hwj
          obtain rfl := Option.some.inj hwj
          exact Or.inr rfl
        · rw [List.get?_set_ne _ _ (fun he => hj he.symm)] at hwj
          exact hoth j w' (fun he => hj he) hwj
      · intro j wj hwj
        by_cases hj : j = i
        · subst hj
          rw [List.get?_set_eq_of_lt _ hi_lt] at hwj
          obtain rfl := Option.some.inj hwj
          subst hwt
          simp
        · rw [List.get?_set_ne _ _ (fun he => hj he.symm)] at hwj
          exact htmp j wj hwj
    · -- pc 6: a finished writer has no step
      simp at hs

theorem winv_run {bs : List (List Char)} :
    ∀ (acts : List Nat) (s : SysSt) (ord : List Nat) (s' : SysSt),
    WInv bs ord s → runSys bs s acts = some s' →
    ∃ ord', WInv bs ord' s' := by
  intro acts
  induction acts with
  | nil =>
    intro s ord s' hI h
    obtain rfl := Option.some.inj h
    exact ⟨ord, hI⟩
  | cons i acts ih =>
    intro s ord s' hI h
    unfold runSys at h
    cases hst : wstep bs s i with
    | none => rw [hst] at h; exact Option.noConfusion h
    | some s1 =>
      rw [hst] at h
      obtain ⟨ord1, hI1⟩ := winv_step hI hst
      exact ih s1 ord1 s' hI1 h

theorem winv_done {bs : List (List Char)} {ord : List Nat} {s : SysSt}
    (hI : WInv bs ord s) (hd : allDone s) (hn : bs ≠ []) :
    ord.Perm (List.range bs.length) ∧
    s.dest = some ((ord.map (fun j => bs.getD j [])).flatten) := by
  obtain ⟨hlen, hnd, hordlt, hpcord, hdest, -, -⟩ := hI
  have hmem : ∀ a, a ∈ ord ↔ a ∈ List.range bs.length := by
    intro a
    constructor
    · intro ha; rw [List.mem_range]; exact hordlt a ha
    · intro ha
      rw [List.mem_range] at ha
      have halt : a < s.ws.length := by omega
      have hw := List.get?_eq_get halt
      have h6 : (s.ws.get ⟨a, halt⟩).pc = 6 :=
        hd _ (List.get?_mem hw)
      exact (hpcord a _ hw).1 (by omega)
  have hperm := (List.perm_ext_iff_of_nodup hnd (List.nodup_range _)).2 hmem
  refine ⟨hperm, ?_⟩
  have hordne : ord ≠ [] := by
    intro he
    subst he
    have h0 : (0 : Nat) ∈ List.range bs.length := by
      rw [List.mem_range]
      exact Nat.pos_of_ne_zero (fun h => hn (List.length_eq_zero.1 h))
    exact absurd ((hmem 0).2 h0) (List.not_mem_nil 0)
  rw [hdest]
  unfold ordDest
  rw [if_neg hordne]

theorem getD_map_of_lt {α β : Type} (f : α → β) (d : α) (d' : β) :
    ∀ (l : List α) (j : Nat), j < l.length →
      (l.map f).getD j d' = f (l.getD j d) := by
  intro l
  induction l with
  | nil => intro j hj; simp at hj
  | cons a l ih =>
    intro j hj
    cases j with
    | zero => simp
    | succ j =>
      simp only [List.map_cons, List.getD_cons_succ]
      exact ih j (by simpa using hj)

theorem map_getD_range {α : Type} (l : List α) (d : α) :
    (List.range l.length).map (fun i => l.getD i d) = l := by
  induction l with
  | nil => rfl
  | cons a l ih =>
    rw [List.length_cons, List.range_succ_eq_map, List.map_cons,
        List.map_map]
    rw [show List.map ((fun i => (a :: l).getD i d) ∘ Nat.succ)
          (List.range l.length) =
        List.map (fun i => l.getD i d) (List.range l.length) from
      List.map_congr_left (fun i _ => by
        simp [Function.comp, List.getD_cons_succ]), ih]
    simp

/-- C3: N writers (N ≥ 2) concurrently appending distinct well-formed
    records to the same missing destination, serialized by the lock
    (modelled by the interleaving semantics `runSys`), leave a file that
    is the concatenation of all N encoded records in some total order,
    and that file parses to exactly N records, each with its payload
    intact, in that order. -/
theorem c3_parallel_append (as : List RecArgs) (acts : List Nat) (s : SysSt)
    (hn : 2 ≤ as.length) (hwf : ∀ a ∈ as, WfArgs a)
    (hrun : runSys (as.map write_record) (initSys as.length) acts = some s)
    (hdone : allDone s) :
    ∃ ras : List RecArgs, ras.Perm as ∧
      s.dest = some ((ras.map write_record).flatten) ∧
      parse_str ((ras.map write_record).flatten) =
        .ok (ras.map expectedRec) ∧
      (ras.map expectedRec).length = as.length := by
  have hlenbs : (as.map write_record).length = as.length := by simp
  have hinit : WInv (as.map write_record) [] (initSys as.length) := by
    rw [← hlenbs]; exact winv_init (as.map write_record)
  obtain ⟨ord, hI⟩ := winv_run acts (initSys as.length) [] s hinit hrun
  have hbsne : as.map write_record ≠ [] := by
    intro he
    rw [List.map_eq_nil] at he
    rw [he] at hn
    simp at hn
  obtain ⟨hperm, hdst⟩ := winv_done hI hdone hbsne
  have hordlt := hI.2.2.1
  have hpermRas : (ord.map (fun i => as.getD i defaultArgs)).Perm as := by
    have h1 : (List.range (as.map write_record).length).map
        (fun i => as.getD i defaultArgs) = as := by
      rw [hlenbs]; exact map_getD_range as defaultArgs
    have h2 := hperm.map (fun i => as.getD i defaultArgs)
    rw [h1] at h2
    exact h2
  have hbseq : (ord.map (fun j => (as.map write_record).getD j [])).flatten =
      (((ord.map (fun i => as.getD i defaultArgs))).map
        write_record).flatten := by
    rw [List.map_map]
    refine congrArg List.flatten (List.map_congr_left ?_)
    intro j hj
    have hjlt : j < as.length := hlenbs ▸ hordlt j hj
    exact getD_map_of_lt write_record defaultArgs [] as j hjlt
  have hrasne : ord.map (fun i => as.getD i defaultArgs) ≠ [] := by
    intro he
    have := hpermRas.length_eq
    rw [he] at this
    simp at this
    omega
  refine ⟨ord.map (fun i => as.getD i defaultArgs), hpermRas, ?_, ?_, ?_⟩
  · rw [hdst, hbseq]
  · exact parse_write_records hrasne
      (fun r hr => hwf r (hpermRas.mem_iff.1 hr))
  · rw [List.length_map]; exact hpermRas.length_eq

set_option maxRecDepth 40000 in
/-- C3 (witness): two writers, scheduled writer 0 first then writer 1. -/
theorem c3_parallel_append_witness :
    2 ≤ ([⟨"1".data, none, "/".data, none, none, .line "a".data, "S".data,
           "E".data, 0, "/o".data, statusStr 0, 0, [], []⟩,
          ⟨"1".data, none, "/".data, none, none, .line "b".data, "S".data,
           "E".data, 0, "/o".data, statusStr 0, 0, [], []⟩] :
          List RecArgs).length ∧
    (∀ a ∈ ([⟨"1".data, none, "/".data, none, none, .line "a".data,
           "S".data, "E".data, 0, "/o".data, statusStr 0, 0, [], []⟩,
          ⟨"1".data, none, "/".data, none, none, .line "b".data, "S".data,
           "E".data, 0, "/o".data, statusStr 0, 0, [], []⟩] :
          List RecArgs), WfArgs a) ∧
    runSys (([⟨"1".data, none, "/".data, none, none, .line "a".data,
           "S".data, "E".data, 0, "/o".data, statusStr 0, 0, [], []⟩,
          ⟨"1".data, none, "/".data, none, none, .line "b".data, "S".data,
           "E".data, 0, "/o".data, statusStr 0, 0, [], []⟩] :
          List RecArgs).map write_record)
        (initSys 2) [0, 0, 0, 0, 0, 0, 1, 1, 1, 1, 1, 1] =
      some ⟨some (write_record ⟨"1".data, none, "/".data, none, none,
                    .line "a".data, "S".data, "E".data, 0, "/o".data,
                    statusStr 0, 0, [], []⟩ ++
                  write_record ⟨"1".data, none, "/".data, none, none,
                    .line "b".data, "S".data, "E".data, 0, "/o".data,
                    statusStr 0, 0, [], []⟩), none,
            [⟨6, none⟩, ⟨6, none⟩]⟩ ∧
    allDone ⟨some (write_record ⟨"1".data, none, "/".data, none, none,
                    .line "a".data, "S".data, "E".data, 0, "/o".data,
                    statusStr 0, 0, [], []⟩ ++
                  write_record ⟨"1".data, none, "/".data, none, none,
                    .line "b".data, "S".data, "E".data, 0, "/o".data,
                    statusStr 0, 0, [], []⟩), none,
            [⟨6, none⟩, ⟨6, none⟩]⟩ ∧
    (∃ ras : List RecArgs,
      ras.Perm [⟨"1".data, none, "/".data, none, none, .line "a".data,
           "S".data, "E".data, 0, "/o".data, statusStr 0, 0, [], []⟩,
          ⟨"1".data, none, "/".data, none, none, .line "b".data, "S".data,
           "E".data, 0, "/o".data, statusStr 0, 0, [], []⟩] ∧
      (⟨some (write_record ⟨"1".data, none, "/".data, none, none,
                    .line "a".data, "S".data, "E".data, 0, "/o".data,
                    statusStr 0, 0, [], []⟩ ++
                  write_record ⟨"1".data, none, "/".data, none, none,
                    .line "b".data, "S".data, "E".data, 0, "/o".data,
                    statusStr 0, 0, [], []⟩), none,
            [⟨6, none⟩, ⟨6, none⟩]⟩ : SysSt).dest =
        some ((ras.map write_record).flatten) ∧
      parse_str ((ras.map write_record).flatten) =
        .ok (ras.map expectedRec) ∧
      (ras.map expectedRec).length =
        ([⟨"1".data, none, "/".data, none, none, .line "a".data, "S".data,
           "E".data, 0, "/o".data, statusStr 0, 0, [], []⟩,
          ⟨"1".data, none, "/".data, none, none, .line "b".data, "S".data,
           "E".data, 0, "/o".data, statusStr 0, 0, [], []⟩] :
          List RecArgs).length) :=
  ⟨by decide, by decide, by decide, by decide,
   c3_parallel_append _ [0, 0, 0, 0, 0, 0, 1, 1, 1, 1, 1, 1] _
     (by decide) (by decide) (by decide) (by decide)⟩

end Rommy
